import Mathlib

/-!
Verification of the planning-urbansoccer roster-to-calendar pipeline.

We shallowly embed the relevant Python functions of `generate.py`,
`generate_s10.py` and `regen_ics.py`:
* Python strings are modelled as `List Char` (`PyStr`);
* `bytes` values are `List Nat` (each element < 256, produced by `utf8Char`);
* naive `datetime` values are modelled as minutes counted from the midnight
  of a reference day (`day * 1440 + hour * 60 + minute`), which is exact for
  naive datetime arithmetic and comparison;
* fallible code (Python exceptions such as `ValueError` from `int(...)` and
  `datetime.replace`, or `IndexError` from `[...]`) is modelled with
  `Except Unit`; `Except.error ()` means "this code path raises".
-/

set_option maxRecDepth 8192

deriving instance DecidableEq for Except

abbrev PyStr := List Char

/-- Shorthand turning a Lean string literal into the `List Char` model of a
Python string. -/
def cs (s : String) : PyStr := s.toList

/-- Whitespace characters stripped by Python's `str.strip()` (the ASCII ones;
the roster data contains no exotic Unicode whitespace). -/
def pyWs (c : Char) : Bool :=
  c == ' ' || c == '\t' || c == '\n' || c == '\r' || c == '\x0b' || c == '\x0c'

/-- Python `str.strip()`. -/
def pyStrip (s : PyStr) : PyStr :=
  ((s.dropWhile pyWs).reverse.dropWhile pyWs).reverse

/-- Python `str.split(sep)` for a one-character separator: `"".split(sep)` is
`[""]`, separators at the ends produce empty parts. -/
def pySplit (sep : Char) : PyStr → List PyStr
  | [] => [[]]
  | c :: rest =>
    if c = sep then [] :: pySplit sep rest
    else
      match pySplit sep rest with
      | [] => [[c]]
      | p :: ps => (c :: p) :: ps

/-- Python `str.split()` with no argument: split on whitespace runs, dropping
empty parts (helper with an accumulator for the current word, reversed). -/
def pyWordSplitAux (cur : PyStr) (acc : List PyStr) : PyStr → List PyStr
  | [] => (if cur.isEmpty then acc else cur.reverse :: acc).reverse
  | c :: rest =>
    if pyWs c then
      if cur.isEmpty then pyWordSplitAux [] acc rest
      else pyWordSplitAux [] (cur.reverse :: acc) rest
    else pyWordSplitAux (c :: cur) acc rest

/-- Python `str.split()` with no argument. -/
def pyWordSplit (s : PyStr) : List PyStr := pyWordSplitAux [] [] s

/-- Python's `list[-1]`, raising `IndexError` on an empty list. -/
def pyLast {α : Type} (l : List α) : Except Unit α :=
  match l.getLast? with
  | some x => .ok x
  | Option.none => .error ()

/-- Python's `list[i]` for a nonnegative index, raising `IndexError` when out
of range. -/
def pyIdx {α : Type} (l : List α) (i : Nat) : Except Unit α :=
  match l[i]? with
  | some x => .ok x
  | Option.none => .error ()

/-- ASCII decimal digit test. -/
def isDig (c : Char) : Bool := decide (48 ≤ c.toNat ∧ c.toNat ≤ 57)

/-- Numeric value of a string of decimal digits. -/
def digitsVal (ds : PyStr) : Nat := ds.foldl (fun a c => 10 * a + (c.toNat - 48)) 0

/-- Python `int(s)` on a string: optional whitespace, optional sign, then at
least one decimal digit; anything else raises `ValueError`.  (Underscore
separators and non-ASCII digits, which Python also accepts, do not occur in
the roster data and are not modelled.) -/
def pyInt (s : PyStr) : Except Unit Int :=
  let t := pyStrip s
  let ds := if t.headD ' ' == '-' || t.headD ' ' == '+' then t.tail else t
  if !ds.isEmpty && ds.all isDig then
    .ok (if t.headD ' ' == '-' then -(digitsVal ds : Int) else (digitsVal ds : Int))
  else .error ()

/-- Accumulator-based decimal printer (structural recursion on a fuel
argument so that proofs by `decide` can evaluate it; `fuel > n` always
suffices because the argument shrinks by a factor of ten each step). -/
def natDigitsAux : Nat → Nat → PyStr → PyStr
  | 0, _, acc => acc
  | fuel + 1, n, acc =>
    if n < 10 then Char.ofNat (48 + n) :: acc
    else natDigitsAux fuel (n / 10) (Char.ofNat (48 + n % 10) :: acc)

/-- Decimal digits of a natural number, most significant first (`str(n)` for
a nonnegative Python int). -/
def natDigits (n : Nat) : PyStr := natDigitsAux (n + 1) n []

/-- Python `str(i)` for an int. -/
def intChars (i : Int) : PyStr :=
  if i < 0 then '-' :: natDigits i.natAbs else natDigits i.toNat

/-- Python `f"{n:02d}"` for a natural number. -/
def fmt02Nat (n : Nat) : PyStr :=
  if n < 10 then '0' :: natDigits n else natDigits n

/-- Python `f"{i:02d}"` for an int (total width two, so negative one-digit
values keep their sign without extra padding, exactly as in Python). -/
def fmt02Int (i : Int) : PyStr :=
  let s := intChars i
  if s.length < 2 then '0' :: s else s

/-- Python `s.endswith("+")`. -/
def endsWithPlus (s : PyStr) : Bool := s.getLast? == some '+'

/-- Python `s.rstrip("+")`: drops every trailing `'+'`. -/
def rstripPlus (s : PyStr) : PyStr := (s.reverse.dropWhile (· == '+')).reverse

/-! ### TimeIntervalResolver: `normalize_time_str` and `parse_time`

`parse_time` appears identically in `generate.py` (lines 170-208) and
`generate_s10.py` (lines 59-91).  The reference date is a midnight
`datetime`; we model it as an integer day index, an instant being
`day * 1440 + 60 * hour + minute` minutes. -/

/-- Possible values of a cell as seen by the Python code: `None`, a `str`, a
`datetime` (Excel cell formatted as a time of day), or some other type. -/
inductive CellVal where
  | none
  | str (s : PyStr)
  | dtime (h m : Nat)
  | other
deriving DecidableEq

/-- String stage of `parse_time`: split on `"/"`, detect and strip the
trailing `"+"`, and parse the `int` fields.  Returns `.ok Option.none` when
the token does not have exactly two `/`-parts (the function returns `None`),
`.error ()` when one of the `int(...)` calls or `[1]` lookups raises. -/
def tokenize (s : PyStr) : Except Unit (Option (Int × Int × Int × Int × Bool)) :=
  match pySplit '/' (pyStrip s) with
  | [a, b] => do
    let startStr := pyStrip a
    let e0 := pyStrip b
    let nextDay := endsWithPlus e0
    let endStr := if nextDay then rstripPlus e0 else e0
    let sp := pySplit ':' startStr
    let sh ← pyInt (sp.headD [])
    let sm ← do let x ← pyIdx sp 1; pyInt x
    let ep := pySplit ':' endStr
    let eh ← pyInt (ep.headD [])
    let em ← do let x ← pyIdx ep 1; pyInt x
    return some (sh, sm, eh, em, nextDay)
  | _ => return Option.none

/-- Arithmetic stage of `parse_time`: normalize hour values `≥ 24`, validate
the `datetime.replace` field ranges (hour `0..23`, minute `0..59`; violation
raises `ValueError`), build the two instants and apply the one-day push when
the `+` flag is set or the end does not come strictly after the start. -/
def resolveFields (day sh sm eh em : Int) (plus : Bool) : Except Unit (Int × Int) :=
  let sh' := if sh ≥ 24 then sh - 24 else sh
  let sx : Int := if sh ≥ 24 then 1 else 0
  let eh' := if eh ≥ 24 then eh - 24 else eh
  let ex : Int := if eh ≥ 24 then 1 else 0
  if 0 ≤ sh' ∧ sh' < 24 ∧ 0 ≤ sm ∧ sm < 60 ∧ 0 ≤ eh' ∧ eh' < 24 ∧ 0 ≤ em ∧ em < 60 then
    let start := (day + sx) * 1440 + sh' * 60 + sm
    let e0 := (day + ex) * 1440 + eh' * 60 + em
    .ok (start, if plus ∨ e0 ≤ start then e0 + 1440 else e0)
  else .error ()

/-- The source's `parse_time(time_str, base_date)`. -/
def parse_time (s : PyStr) (day : Int) : Except Unit (Option (Int × Int)) := do
  match ← tokenize s with
  | Option.none => return Option.none
  | some (sh, sm, eh, em, plus) => return some (← resolveFields day sh sm eh em plus)

/-- Start instant before any overnight adjustment other than the hour `≥ 24`
carry (the source's `start_dt`). -/
def naiveStart (day sh sm : Int) : Int :=
  (day + if sh ≥ 24 then 1 else 0) * 1440 + (if sh ≥ 24 then sh - 24 else sh) * 60 + sm

/-- Naive same-day end instant (the source's `end_dt` before the one-day
push), including the hour `≥ 24` carry. -/
def naiveEnd (day eh em : Int) : Int :=
  (day + if eh ≥ 24 then 1 else 0) * 1440 + (if eh ≥ 24 then eh - 24 else eh) * 60 + em

/-- Match of the anchored pattern of `normalize_time_str`
`^(\d\x7b1,2\x7d):(\d\x7b2\x7d)/(\d\x7b1,2\x7d):(\d\x7b2\x7d)(\+?)$`,
returning the numeric hour groups and the verbatim minute groups. -/
def matchToken (s : PyStr) : Option (Nat × PyStr × Nat × PyStr × Bool) :=
  match pySplit '/' s with
  | [a, b] =>
    match pySplit ':' a, pySplit ':' b with
    | [h1, m1], [h2, m2raw] =>
      let plus := endsWithPlus m2raw
      let m2 := if plus then m2raw.dropLast else m2raw
      if (h1.length == 1 || h1.length == 2) && h1.all isDig &&
         m1.length == 2 && m1.all isDig &&
         (h2.length == 1 || h2.length == 2) && h2.all isDig &&
         m2.length == 2 && m2.all isDig then
        some (digitsVal h1, m1, digitsVal h2, m2, plus)
      else Option.none
    | _, _ => Option.none
  | _ => Option.none

/-- Canonical token rebuilt by `normalize_time_str`:
`f"\x7bint(g1):02d\x7d:\x7bg2\x7d/\x7bint(g3):02d\x7d:\x7bg4\x7d\x7bg5\x7d"`. -/
def renderToken (h : Nat) (m1 : PyStr) (eh : Nat) (m2 : PyStr) (plus : Bool) : PyStr :=
  fmt02Nat h ++ ':' :: m1 ++ '/' :: fmt02Nat eh ++ ':' :: m2 ++ (if plus then ['+'] else [])

/-- The source's `normalize_time_str(val)` (`generate.py` lines 146-167):
`datetime`-formatted cells and non-strings yield `None`; otherwise the
stripped string must match the time-token pattern and is reformatted with
two-digit hours. -/
def normalize_time_str (v : CellVal) : Option PyStr :=
  match v with
  | .dtime _ _ => Option.none
  | .none => Option.none
  | .other => Option.none
  | .str s =>
    let t := pyStrip s
    if t.isEmpty then Option.none
    else
      match matchToken t with
      | some (h, m1, eh, m2, plus) => some (renderToken h m1 eh m2 plus)
      | Option.none => Option.none

/-- The combined per-cell resolver as used by `parse_shifts`: a cell whose
value does not normalize contributes no token (`.ok Option.none`); a
normalized token is handed to `parse_time`. -/
def resolve_cell (v : CellVal) (day : Int) : Except Unit (Option (Int × Int)) :=
  match normalize_time_str v with
  | Option.none => .ok Option.none
  | some t => parse_time t day

/-! ### UTF-8 encoding and RFC 5545 line folding

`fold_line` is from `regen_ics.py` lines 28-42; `generate.py` lines 398-424
inline the same algorithm (same cut positions, same continuation space). -/

/-- UTF-8 encoding of one character, written with arithmetic on byte values
(identical to the standard shift/mask formulation since the bit ranges are
disjoint). -/
def utf8Char (c : Char) : List Nat :=
  if c.toNat < 128 then [c.toNat]
  else if c.toNat < 2048 then [192 + c.toNat / 64, 128 + c.toNat % 64]
  else if c.toNat < 65536 then
    [224 + c.toNat / 4096, 128 + c.toNat / 64 % 64, 128 + c.toNat % 64]
  else
    [240 + c.toNat / 262144, 128 + c.toNat / 4096 % 64, 128 + c.toNat / 64 % 64,
     128 + c.toNat % 64]

/-- Python `s.encode('utf-8')` as a list of byte values. -/
def pyEncode (s : PyStr) : List Nat := s.flatMap utf8Char

/-- The source's continuation-byte test `(b & 0xC0) == 0x80`, written
arithmetically (equivalent for byte values, see `contByte_eq_land`). -/
def contByte (b : Nat) : Bool := decide (128 ≤ b ∧ b < 192)

/-- The back-off loop `while cut > 0 and (encoded[cut] & 0xC0) == 0x80:
cut -= 1` of `fold_line`. -/
def backOff (bs : List Nat) : Nat → Nat
  | 0 => 0
  | n + 1 => if contByte (bs.getD (n + 1) 0) then backOff bs n else n + 1

/-- The chunking loop of `fold_line`: while more than 75 bytes remain, cut at
75 (first chunk) or 74 (later chunks, leaving room for the continuation
space), backing off so as not to cut between a UTF-8 lead byte and its
continuation bytes; a nonempty residue becomes the final chunk.  The
`cut = 0` branch is unreachable on valid UTF-8 input (there the Python loop
would not terminate, as `encoded` would never shrink). -/
def foldPartsF : Nat → List Nat → Bool → List (List Nat)
  | 0, bs, _ => [bs]
  | fuel + 1, bs, first =>
    if bs.length ≤ 75 then (if bs.isEmpty then [] else [bs])
    else
      let cut := backOff bs (if first then 75 else 74)
      if cut = 0 then [bs]
      else bs.take cut :: foldPartsF fuel (bs.drop cut) false

/-- The chunking loop with enough fuel (every productive step removes at
least one byte, so `length + 1` iterations always finish; the fuel only
makes the recursion structural so that proofs can evaluate it). -/
def foldParts (bs : List Nat) (first : Bool) : List (List Nat) :=
  foldPartsF (bs.length + 1) bs first

/-- The source's `fold_line(line)`, viewed as the list of physical content
lines it produces (the Python function returns them joined by `"\r\n "`, so
every continuation line carries one leading space, byte 32). -/
def fold_line (bs : List Nat) : List (List Nat) :=
  if bs.length ≤ 75 then [bs]
  else
    match foldParts bs true with
    | [] => []
    | p :: ps => p :: ps.map (fun q => 32 :: q)

/-- Unfolding per RFC 5545: drop the single leading space of every
continuation line and concatenate. -/
def unfoldLines (lines : List (List Nat)) : List Nat :=
  match lines with
  | [] => []
  | l :: ls => l ++ (ls.map (fun x => x.drop 1)).flatten

/-! ### RosterParser: `parse_shifts` (`generate.py` lines 233-303)

The worksheet is modelled as a total function from (row, column letter) to
`CellVal`; `dates` maps each weekday column to its day index (the source's
`dates` dict built by `week_dates` always contains all seven columns, so the
`col in dates` test is always true and the mapping is total here). -/

/-- The seven weekday columns. -/
def COLS : List Char := ['B', 'C', 'D', 'E', 'F', 'G', 'H']

/-- Helper for the prefix regex: consume `\d\x7b1,2\x7d:\d\x7b2\x7d` from the
front of the string, greedily trying the two-digit hour first. -/
def matchHM (s : PyStr) : Option PyStr :=
  (match s with
   | c1 :: c2 :: ':' :: m1 :: m2 :: r =>
     if isDig c1 && isDig c2 && isDig m1 && isDig m2 then some r else Option.none
   | _ => Option.none).orElse
  (fun _ =>
    match s with
    | c1 :: ':' :: m1 :: m2 :: r =>
      if isDig c1 && isDig m1 && isDig m2 then some r else Option.none
    | _ => Option.none)

/-- The unanchored prefix match
`re.match(r"^\d\x7b1,2\x7d:\d\x7b2\x7d/\d\x7b1,2\x7d:\d\x7b2\x7d", val)`
used to tell time tokens apart from shift codes. -/
def startsWithTimeShape (s : PyStr) : Bool :=
  match matchHM s with
  | some ('/' :: r2) => (matchHM r2).isSome
  | _ => false

/-- A cell counts as a shift code when it is a truthy string whose stripped
text is nonempty and does not look like a time token. -/
def codeOfCell (v : CellVal) : Option PyStr :=
  match v with
  | .str s =>
    if s.isEmpty then Option.none
    else
      let t := pyStrip s
      if ¬t.isEmpty ∧ ¬startsWithTimeShape t then some t else Option.none
  | _ => Option.none

/-- Codes found in one row, in column order (the source's `codes` dict,
whose insertion order is the `COLS` order). -/
def collectCodes (grid : Nat → Char → CellVal) (row : Nat) : List (Char × PyStr) :=
  COLS.filterMap fun col =>
    match codeOfCell (grid row col) with
    | some t => some (col, t)
    | Option.none => Option.none

/-- Warnings printed by `parse_shifts`, modelled structurally (the source
formats French strings that also mention the employee name and row). -/
inductive Warning where
  | timeCell (row : Nat) (col : Char) (h m : Nat)
  | codeNoTimeRow (row : Nat) (col : Char) (code : PyStr)
  | codeNoTime (row : Nat) (col : Char) (code : PyStr)
deriving DecidableEq

/-- One parsed shift: the source's event dict
`\x7bcode, label, start, end, week\x7d` (the `end` key is called `stop`
here because `end` is a Lean keyword). -/
structure ShiftEvent where
  code : PyStr
  label : PyStr
  start : Int
  stop : Int
  week : Nat
deriving DecidableEq

/-- First-match association-list lookup (Python dict read). -/
def alistGet? {κ α : Type} [DecidableEq κ] : List (κ × α) → κ → Option α
  | [], _ => Option.none
  | (k', v) :: t, k => if k' = k then some v else alistGet? t k

/-- The `CODE_NAMES` table of `generate.py`. -/
def CODE_NAMES : List (PyStr × PyStr) :=
  [(cs "VDC", cs "Vie de centre"), (cs "L-REG", cs "Régisseur League"),
   (cs "CUP-L", cs "Cup League"), (cs "CUP-R", cs "Cup Régisseur"),
   (cs "STAGE", cs "Stage"), (cs "STA-E", cs "Stage encadrement"),
   (cs "C-PAD", cs "Cours Padel"), (cs "PAD-A", cs "Padel animation"),
   (cs "ANNIV", cs "Anniversaire"), (cs "INVEN", cs "Inventaire"),
   (cs "MAL", cs "Maladie"), (cs "REU", cs "Réunion"),
   (cs "EV-RE", cs "Événement régisseur"), (cs "AIDE", cs "Aide"),
   (cs "P25M", cs "P25M"), (cs "PSG", cs "PSG Academy"),
   (cs "FOR-E", cs "Formation théorique"), (cs "FOR-P", cs "Formation pratique"),
   (cs "STA-P", cs "Stage Padel")]

/-- Time tokens of the row below a code row, in column order, together with
the warnings for `datetime`-formatted cells (`None` cells are skipped
silently; other unparseable cells are skipped without a warning here). -/
def collectTimes (grid : Nat → Char → CellVal) (trow : Nat) :
    List (Char × PyStr) × List Warning :=
  (COLS.filterMap fun col => (normalize_time_str (grid trow col)).map fun t => (col, t),
   COLS.filterMap fun col =>
     match grid trow col with
     | .dtime h m => some (Warning.timeCell trow col h m)
     | _ => Option.none)

/-- Per-code processing of one consumed (code row, time row) pair: a code
whose column has a parseable token becomes one event (`if parsed:` silently
drops a `None` result); a code without a token gets a "code without time
found" warning.  `parse_time` itself can raise (out-of-range fields), which
aborts the whole parse. -/
def processCodes (dates : Char → Int) (week : Nat) (row : Nat)
    (codes times : List (Char × PyStr)) :
    Except Unit (List ShiftEvent × List Warning) :=
  match codes with
  | [] => .ok ([], [])
  | (col, code) :: t =>
    match alistGet? times col with
    | some tok => do
      let p ← parse_time tok (dates col)
      let (evs, ws) ← processCodes dates week row t times
      match p with
      | some (s, e) =>
        .ok ({ code := code, label := (alistGet? CODE_NAMES code).getD code,
               start := s, stop := e, week := week } :: evs, ws)
      | Option.none => .ok (evs, ws)
    | Option.none => do
      let (evs, ws) ← processCodes dates week row t times
      .ok (evs, Warning.codeNoTime row col code :: ws)

/-- The scanning loop of `parse_shifts` over an employee's row numbers: a
row with no codes advances one row; a code row consumes the following time
row (or warns about every code when there is none) and advances two rows. -/
def parseShiftsGo (grid : Nat → Char → CellVal) (dates : Char → Int) (week : Nat) :
    List Nat → Except Unit (List ShiftEvent × List Warning)
  | [] => .ok ([], [])
  | row :: rest =>
    let codes := collectCodes grid row
    if codes.isEmpty then parseShiftsGo grid dates week rest
    else
      match rest with
      | [] => do
        let w1 := codes.map fun p => Warning.codeNoTimeRow row p.1 p.2
        let (evs, ws) ← processCodes dates week row codes []
        .ok (evs, w1 ++ ws)
      | trow :: rest2 => do
        let tw := collectTimes grid trow
        let (evs, ws) ← processCodes dates week row codes tw.1
        let (evs2, ws2) ← parseShiftsGo grid dates week rest2
        .ok (evs ++ evs2, tw.2 ++ ws ++ ws2)

/-- Final start-time sort (`events.sort(key=lambda e: e["start"])`; the
sort order is total on the modelled instants, so any correct sort agrees
with Python's stable sort up to reordering of equal keys, which no claim
depends on). -/
def sortByStart (l : List ShiftEvent) : List ShiftEvent :=
  List.insertionSort (fun a b => a.start ≤ b.start) l

/-- The source's `parse_shifts(ws, rows, dates, week_num, name)`, returning
the sorted events and the warnings it prints. -/
def parse_shifts (grid : Nat → Char → CellVal) (dates : Char → Int) (week : Nat)
    (rows : List Nat) : Except Unit (List ShiftEvent × List Warning) := do
  let (evs, ws) ← parseShiftsGo grid dates week rows
  .ok (sortByStart evs, ws)

/-! ### CalendarFeedBuilder: `slug`, escaping and `generate_ics`

We embed the `regen_ics.py` generator (lines 104-201), which takes the
generation timestamp as an argument; `generate.py` lines 309-424 build the
same event identifiers.  The document is modelled as its list of physical
content lines, each a UTF-8 byte list (the Python code joins them with
`"\r\n"` and appends a final `"\r\n"`). -/

/-- Python `str.lower()` restricted to the characters appearing in roster
names (ASCII letters plus the accented vowels/consonants the `slug`
replacement table handles). -/
def lowerChar (c : Char) : Char :=
  if decide ('A' ≤ c ∧ c ≤ 'Z') then Char.ofNat (c.toNat + 32)
  else if c = 'Ï' then 'ï' else if c = 'É' then 'é' else if c = 'È' then 'è'
  else if c = 'Ê' then 'ê' else if c = 'Ô' then 'ô' else if c = 'Ü' then 'ü'
  else if c = 'Ù' then 'ù' else if c = 'Û' then 'û' else if c = 'À' then 'à'
  else if c = 'Â' then 'â' else if c = 'Ç' then 'ç' else c

/-- The chain of `str.replace` calls of `slug` (all patterns are single
characters, so the chain acts characterwise). -/
def accentFold (c : Char) : Char :=
  if c = 'ï' then 'i' else if c = 'é' then 'e' else if c = 'è' then 'e'
  else if c = 'ê' then 'e' else if c = 'ô' then 'o' else if c = 'ü' then 'u'
  else if c = 'ù' then 'u' else if c = 'û' then 'u' else if c = 'à' then 'a'
  else if c = 'â' then 'a' else if c = 'ç' then 'c' else c

/-- Characters kept verbatim by `re.sub(r"[^a-z0-9]+", "-", s)`. -/
def isAlnumLower (c : Char) : Bool :=
  decide (('a' ≤ c ∧ c ≤ 'z') ∨ ('0' ≤ c ∧ c ≤ '9'))

def collapseNonAlnumF : Nat → PyStr → PyStr
  | 0, s => s
  | fuel + 1, s =>
    match s with
    | [] => []
    | c :: rest =>
      if isAlnumLower c then c :: collapseNonAlnumF fuel rest
      else '-' :: collapseNonAlnumF fuel (rest.dropWhile fun d => !isAlnumLower d)

/-- `re.sub(r"[^a-z0-9]+", "-", s)`: every maximal run of other characters
becomes a single dash (fuel-based structural recursion; every step consumes
at least one character, so `length + 1` steps always finish). -/
def collapseNonAlnum (s : PyStr) : PyStr := collapseNonAlnumF (s.length + 1) s

/-- Python `s.strip("-")`. -/
def stripDash (s : PyStr) : PyStr :=
  ((s.dropWhile (· == '-')).reverse.dropWhile (· == '-')).reverse

/-- The source's `slug(name)` (identical in all three scripts). -/
def slug (name : PyStr) : PyStr :=
  stripDash (collapseNonAlnum ((name.map lowerChar).map accentFold))

/-- One characterwise `str.replace(pat, rep)` with a one-character pattern. -/
def escChar (pat : Char) (rep : PyStr) (s : PyStr) : PyStr :=
  s.flatMap fun c => if c = pat then rep else [c]

/-- The source's `ics_escape(text)`: backslash, newline, comma, semicolon,
in that order. -/
def ics_escape (s : PyStr) : PyStr :=
  escChar ';' ['\\', ';']
    (escChar ',' ['\\', ',']
      (escChar '\n' ['\\', 'n']
        (escChar '\\' ['\\', '\\'] s)))

/-- The inline SUMMARY escape (backslash, comma, semicolon — no newline). -/
def summaryEscape (s : PyStr) : PyStr :=
  escChar ';' ['\\', ';'] (escChar ',' ['\\', ','] (escChar '\\' ['\\', '\\'] s))

/-- One event as read from the embedded JSON: the keys `label`, `start`,
`end` (the last one named `stop` here since `end` is a Lean keyword);
`start`/`end` are local timestamps like `"2026-03-03T10:00"`. -/
structure JEvent where
  label : PyStr
  start : PyStr
  stop : PyStr
deriving DecidableEq

/-- A replacement record from the notes file: keys `date`, `start`, `end`,
`in`, `out` (named `stop`, `inName`, `outName` here).  The source reads the
keys with `.get(...)` defaults; a record is modelled with all keys present,
absent keys being represented by their defaults. -/
structure Replacement where
  date : PyStr
  start : PyStr
  stop : PyStr
  inName : PyStr
  outName : PyStr
deriving DecidableEq

/-- A weekly notes file: `comment`, `updates` (list of `(date, text)`),
`replacements`.  A missing notes file is the empty dict, which behaves like
all-empty fields everywhere it is used. -/
structure Notes where
  comment : PyStr
  updates : List (PyStr × PyStr)
  replacements : List Replacement
deriving DecidableEq

/-- The empty notes value (missing `SXX.json`). -/
def emptyNotes : Notes := { comment := [], updates := [], replacements := [] }

/-- The source's `build_description(notes)`. -/
def build_description (n : Notes) : PyStr :=
  n.updates.foldl
    (fun desc upd =>
      if !upd.2.isEmpty then
        (if !desc.isEmpty then desc ++ ['\n'] else desc) ++
          (if !upd.1.isEmpty then cs "MAJ " ++ upd.1 ++ cs ": " else cs "MAJ: ") ++ upd.2
      else desc)
    n.comment

/-- UID content line of one event: `f"UID:\x7bs\x7d-s\x7bweek\x7d-\x7bi\x7d@urban7d"`. -/
def uidLine (s : PyStr) (w : Nat) (i : Nat) : PyStr :=
  cs "UID:" ++ s ++ cs "-s" ++ natDigits w ++ '-' :: natDigits i ++ cs "@urban7d"

/-- Fixed preamble lines of the calendar document (`regen_ics.py` lines
107-134), including the timezone block. -/
def icsHeader (name : PyStr) : List PyStr :=
  [cs "BEGIN:VCALENDAR", cs "VERSION:2.0", cs "PRODID:-//Planning Urban 7D//FR",
   cs "CALSCALE:GREGORIAN", cs "METHOD:PUBLISH",
   cs "X-WR-CALNAME:Planning " ++ name, cs "X-WR-TIMEZONE:Europe/Paris",
   cs "REFRESH-INTERVAL;VALUE=DURATION:PT12H", cs "X-PUBLISHED-TTL:PT12H",
   cs "BEGIN:VTIMEZONE", cs "TZID:Europe/Paris", cs "BEGIN:STANDARD",
   cs "TZOFFSETFROM:+0200", cs "TZOFFSETTO:+0100", cs "TZNAME:CET",
   cs "DTSTART:19701025T030000", cs "RRULE:FREQ=YEARLY;BYMONTH=10;BYDAY=-1SU",
   cs "END:STANDARD", cs "BEGIN:DAYLIGHT", cs "TZOFFSETFROM:+0100",
   cs "TZOFFSETTO:+0200", cs "TZNAME:CEST", cs "DTSTART:19700329T020000",
   cs "RRULE:FREQ=YEARLY;BYMONTH=3;BYDAY=-1SU", cs "END:DAYLIGHT",
   cs "END:VTIMEZONE"]

/-- Hour-of-day expressions such as `int(t[0]) + int(t[1]) / 60` are
compared with `<`, `>`, `≤` against each other and against the constant 24.
We scale them by 60 to stay in exact integers: two such values are equal,
smaller or larger exactly when the corresponding Python floats are, because
distinct values of this shape differ by at least `1/60`, far above the
rounding error of IEEE doubles on this range. -/
def hourSx (h m : Int) : Int := 60 * h + m

/-- The replacement-annotation loop of `regen_ics.generate_ics` (lines
162-181), folding over the week's records and threading
`(summary_label, repl_note)`.  `split(":")` of a `.get(..., "0:0")` default
never raises on index 0; minutes default to 0 when absent. -/
def replFold (name evtDate : PyStr) (evtSh evtEh : Int) :
    List Replacement → PyStr × PyStr → Except Unit (PyStr × PyStr)
  | [], st => .ok st
  | r :: rest, st =>
    if r.date ≠ evtDate then replFold name evtDate evtSh evtEh rest st
    else do
      let rp := pySplit ':' r.start
      let a ← pyInt (rp.headD [])
      let b ← if 1 < rp.length then pyInt (rp.getD 1 []) else pure 0
      let re := pySplit ':' r.stop
      let c ← pyInt (re.headD [])
      let d ← if 1 < re.length then pyInt (re.getD 1 []) else pure 0
      if evtSh < hourSx c d ∧ evtEh > hourSx a b then
        if name = r.outName then do
          let inFirst ← if !r.inName.isEmpty then pyLast (pyWordSplit r.inName) else pure []
          replFold name evtDate evtSh evtEh rest
            (cs "[Remplacé par " ++ inFirst ++ cs "] " ++ st.1, cs "Remplacé par " ++ r.inName)
        else if name = r.inName then do
          let outFirst ← if !r.outName.isEmpty then pyLast (pyWordSplit r.outName) else pure []
          replFold name evtDate evtSh evtEh rest
            (cs "[Remplace " ++ outFirst ++ cs "] " ++ st.1, cs "Remplace " ++ r.outName)
        else replFold name evtDate evtSh evtEh rest st
      else replFold name evtDate evtSh evtEh rest st

/-- Physical lines produced for one event (`regen_ics.py` lines 143-198):
timestamp munging, replacement annotation, description assembly, escaping,
and folding of SUMMARY and DESCRIPTION. -/
def eventLines (name s : PyStr) (w : Nat) (descRaw : PyStr)
    (repls : List Replacement) (dtstamp : PyStr) (i : Nat) (evt : JEvent) :
    Except Unit (List (List Nat)) := do
  let startM := (evt.start.filter fun c => !(c == '-')).filter fun c => !(c == ':')
  let stopM := (evt.stop.filter fun c => !(c == '-')).filter fun c => !(c == ':')
  let t1 ← pyIdx (pySplit 'T' startM) 1
  let startStr := if t1.length = 4 then startM ++ cs "00" else startM
  let t2 ← pyIdx (pySplit 'T' stopM) 1
  let stopStr := if t2.length = 4 then stopM ++ cs "00" else stopM
  let evtDate := evt.start.take 10
  let ts ← pyIdx (pySplit 'T' evt.start) 1
  let tp := pySplit ':' ts
  let sh ← pyInt (tp.headD [])
  let sm ← do let x ← pyIdx tp 1; pyInt x
  let us ← pyIdx (pySplit 'T' evt.stop) 1
  let up := pySplit ':' us
  let eh ← pyInt (up.headD [])
  let em ← do let x ← pyIdx up 1; pyInt x
  let evtSh := hourSx sh sm
  let evtEh0 := hourSx eh em
  let evtEh := if evtEh0 ≤ evtSh then (1440 : Int) else evtEh0
  let st ← replFold name evtDate evtSh evtEh repls (evt.label, [])
  let evtDesc := if !st.2.isEmpty then st.2 ++ (if !descRaw.isEmpty then '\n' :: descRaw else []) else descRaw
  let evtDescEsc := if !evtDesc.isEmpty then ics_escape evtDesc else []
  let summary := summaryEscape st.1
  return [pyEncode (cs "BEGIN:VEVENT"),
          pyEncode (uidLine s w i),
          pyEncode (cs "DTSTAMP:" ++ dtstamp),
          pyEncode (cs "DTSTART;TZID=Europe/Paris:" ++ startStr),
          pyEncode (cs "DTEND;TZID=Europe/Paris:" ++ stopStr)] ++
         fold_line (pyEncode (cs "SUMMARY:" ++ summary)) ++
         (if !evtDescEsc.isEmpty then fold_line (pyEncode (cs "DESCRIPTION:" ++ evtDescEsc)) else []) ++
         [pyEncode (cs "END:VEVENT")]

/-- Python `enumerate(l, i)`. -/
def enumFrom {α : Type} (i : Nat) : List α → List (Nat × α)
  | [] => []
  | x :: xs => (i, x) :: enumFrom (i + 1) xs

/-- Monadic map over `Except Unit` (a `for` loop that may raise). -/
def exMapM {α β : Type} (f : α → Except Unit β) : List α → Except Unit (List β)
  | [] => .ok []
  | x :: xs => do
    let y ← f x
    let ys ← exMapM f xs
    .ok (y :: ys)

/-- Physical lines of one week's events. -/
def weekLines (name s : PyStr) (allNotes : List (Nat × Notes)) (dtstamp : PyStr)
    (wk : Nat × List JEvent) : Except Unit (List (List Nat)) := do
  let notes := (alistGet? allNotes wk.1).getD emptyNotes
  let descRaw := build_description notes
  let blocks ← exMapM (fun p => eventLines name s wk.1 descRaw notes.replacements dtstamp p.1 p.2)
    (enumFrom 1 wk.2)
  .ok blocks.flatten

/-- `for week_num in sorted(all_events.keys())` with the week's event list:
the per-employee week map as an ordered list of (week, events) pairs. -/
def sortedWeeks (m : List (Nat × List JEvent)) : List (Nat × List JEvent) :=
  (((m.map Prod.fst).dedup).insertionSort (· ≤ ·)).map fun w => (w, (alistGet? m w).getD [])

/-- The source's `generate_ics(name, all_events, all_notes, dtstamp_utc)` of
`regen_ics.py`, as the list of physical content lines of the document. -/
def generate_ics (name : PyStr) (allEvents : List (Nat × List JEvent))
    (allNotes : List (Nat × Notes)) (dtstamp : PyStr) :
    Except Unit (List (List Nat)) := do
  let s := slug name
  let wbs ← exMapM (weekLines name s allNotes dtstamp) (sortedWeeks allEvents)
  .ok ((icsHeader name).map pyEncode ++ wbs.flatten ++ [pyEncode (cs "END:VCALENDAR")])

/-! ### ReplacementResolver: the synthesis loop of `regen_ics.main`
(lines 243-287). -/

/-- Employee entry: `\x7b"slug": ..., "weeks": \x7b week: [events] \x7d\x7d`
(the dict field is called `slugVal` to avoid clashing with the function). -/
structure EmpData where
  slugVal : PyStr
  weeks : List (Nat × List JEvent)
deriving DecidableEq

/-- The `employees` accumulator, an insertion-ordered dict. -/
abbrev Employees := List (PyStr × EmpData)

/-- In-place update of the first binding of a key (Python dict item
assignment for an existing key keeps its position). -/
def updateFirst {κ α : Type} [DecidableEq κ] : List (κ × α) → κ → (α → α) → List (κ × α)
  | [], _, _ => []
  | (k', v) :: t, k, f => if k' = k then (k', f v) :: t else (k', v) :: updateFirst t k f

/-- `employees.get(n, \x7b\x7d).get("weeks", \x7b\x7d).get(w, [])`. -/
def getWeekEvts (emps : Employees) (n : PyStr) (w : Nat) : List JEvent :=
  match alistGet? emps n with
  | some d => (alistGet? d.weeks w).getD []
  | Option.none => []

/-- The `for oev in out_evts` search for the replaced person's first
overlapping event on the date (lines 268-279): events on other dates are
skipped before any parsing, the first overlap ends the loop with its label,
and events that span midnight are compared with an end hour of 24. -/
def findOverlapLabel (outEvts : List JEvent) (rdate : PyStr) (rsh reh : Int)
    (lbl : PyStr) : Except Unit PyStr :=
  match outEvts with
  | [] => .ok lbl
  | oev :: rest =>
    if oev.start.take 10 ≠ rdate then findOverlapLabel rest rdate rsh reh lbl
    else do
      let ot ← pyIdx (pySplit 'T' oev.start) 1
      let op := pySplit ':' ot
      let oh ← pyInt (op.headD [])
      let om ← do let x ← pyIdx op 1; pyInt x
      let et ← pyIdx (pySplit 'T' oev.stop) 1
      let ep := pySplit ':' et
      let fh ← pyInt (ep.headD [])
      let fm ← do let x ← pyIdx ep 1; pyInt x
      let osh := hourSx oh om
      let oeh0 := hourSx fh fm
      let oeh := if oeh0 ≤ osh then (1440 : Int) else oeh0
      if osh < reh ∧ oeh > rsh then .ok oev.label
      else findOverlapLabel rest rdate rsh reh lbl

/-- Processing of one replacement record `r` of one week by the synthesis
loop of `main`: parse the window, skip when the incoming employee already
has an event on the date, otherwise synthesize an event labelled from the
outgoing employee's first overlapping event (default "Vie de centre") and
append it to the incoming employee's list for that week, creating the
employee entry and the week entry if needed. -/
def applyRepl (emps : Employees) (week : Nat) (r : Replacement) :
    Except Unit Employees := do
  if r.inName.isEmpty then return emps
  let ps := pySplit ':' r.start
  let rsh ← pyInt (ps.headD [])
  let rsm ← if 1 < ps.length then pyInt (ps.getD 1 []) else pure 0
  let pe := pySplit ':' r.stop
  let reh ← pyInt (pe.headD [])
  let rem ← if 1 < pe.length then pyInt (pe.getD 1 []) else pure 0
  let replacerEvts := getWeekEvts emps r.inName week
  if replacerEvts.any (fun e => e.start.take 10 == r.date) then return emps
  let outEvts := getWeekEvts emps r.outName week
  let refLabel ← findOverlapLabel outEvts r.date (hourSx rsh rsm) (hourSx reh rem)
    (cs "Vie de centre")
  let synth : JEvent :=
    { label := refLabel,
      start := r.date ++ 'T' :: (fmt02Int rsh ++ ':' :: fmt02Int rsm),
      stop := r.date ++ 'T' :: (fmt02Int reh ++ ':' :: fmt02Int rem) }
  let emps1 :=
    if (alistGet? emps r.inName).isSome then emps
    else emps ++ [(r.inName, { slugVal := slug r.inName, weeks := [] })]
  return updateFirst emps1 r.inName fun d =>
    let wk1 := if (alistGet? d.weeks week).isSome then d.weeks else d.weeks ++ [(week, [])]
    { d with weeks := updateFirst wk1 week fun l => l ++ [synth] }

/-! ### Small observers used only in the theorem statements. -/

/-- Calendar-day index of an instant (floor division by the number of
minutes in a day). -/
def dayOf (t : Int) : Int := t / 1440

/-- Does a physical line begin with the four bytes of `"UID:"`? -/
def isUID (l : List Nat) : Bool := l.take 4 == [85, 73, 68, 58]

/-- Event identifiers the specification promises: one per event, formed from
the employee slug, the week number and the 1-based sequence number within
the week, weeks in ascending order. -/
def expectedUIDs (s : PyStr) (m : List (Nat × List JEvent)) : List (List Nat) :=
  (sortedWeeks m).flatMap fun p =>
    (List.range p.2.length).map fun j => pyEncode (uidLine s p.1 (j + 1))

/-! ### Basic string lemmas -/

theorem dropWhile_eq_self_of_head {α : Type} {p : α → Bool} {l : List α}
    (h : ∀ a, l.head? = some a → p a = false) : l.dropWhile p = l := by
  cases l with
  | nil => rfl
  | cons a t => simp [List.dropWhile_cons, h a rfl]

theorem pyStrip_eq_self {s : PyStr} (h : ∀ c ∈ s, pyWs c = false) : pyStrip s = s := by
  unfold pyStrip
  have h1 : s.dropWhile pyWs = s :=
    dropWhile_eq_self_of_head fun a ha => h a (List.mem_of_mem_head? ha)
  rw [h1]
  have h2 : s.reverse.dropWhile pyWs = s.reverse :=
    dropWhile_eq_self_of_head fun a ha => by
      rw [List.head?_reverse] at ha
      exact h a (List.mem_of_mem_getLast? ha)
  rw [h2, List.reverse_reverse]

theorem pySplit_no_sep {sep : Char} {s : PyStr} (h : ∀ c ∈ s, ¬c = sep) :
    pySplit sep s = [s] := by
  induction s with
  | nil => rfl
  | cons c t ih =>
    have hc : ¬c = sep := h c (List.mem_cons_self _ _)
    have ht := ih fun x hx => h x (List.mem_cons_of_mem _ hx)
    simp [pySplit, hc, ht]

theorem pySplit_append {sep : Char} {a b : PyStr} (h : ∀ c ∈ a, ¬c = sep) :
    pySplit sep (a ++ sep :: b) = a :: pySplit sep b := by
  induction a with
  | nil => simp [pySplit]
  | cons c t ih =>
    have hc : ¬c = sep := h c (List.mem_cons_self _ _)
    have ht := ih fun x hx => h x (List.mem_cons_of_mem _ hx)
    simp only [List.cons_append, pySplit, if_neg hc]
    rw [List.append_eq, ht]

theorem isDig_elim {c : Char} (h : isDig c = true) :
    c = '0' ∨ c = '1' ∨ c = '2' ∨ c = '3' ∨ c = '4' ∨ c = '5' ∨ c = '6' ∨ c = '7' ∨
      c = '8' ∨ c = '9' := by
  have hn : 48 ≤ c.toNat ∧ c.toNat ≤ 57 := by simpa [isDig] using h
  obtain ⟨h1, h2⟩ := hn
  have hc : c = Char.ofNat c.toNat := (Char.ofNat_toNat c).symm
  set k := c.toNat with hk
  clear_value k
  subst hc
  interval_cases k <;> decide

theorem isDig_not_ws {c : Char} (h : isDig c = true) : pyWs c = false := by
  rcases isDig_elim h with h | h | h | h | h | h | h | h | h | h <;> subst h <;> decide

theorem isDig_ne_plus {c : Char} (h : isDig c = true) : c ≠ '+' := by
  rcases isDig_elim h with h | h | h | h | h | h | h | h | h | h <;> subst h <;> decide

theorem isDig_ne_minus {c : Char} (h : isDig c = true) : c ≠ '-' := by
  rcases isDig_elim h with h | h | h | h | h | h | h | h | h | h <;> subst h <;> decide

theorem isDig_ne_colon {c : Char} (h : isDig c = true) : c ≠ ':' := by
  rcases isDig_elim h with h | h | h | h | h | h | h | h | h | h <;> subst h <;> decide

theorem isDig_ne_slash {c : Char} (h : isDig c = true) : c ≠ '/' := by
  rcases isDig_elim h with h | h | h | h | h | h | h | h | h | h <;> subst h <;> decide

theorem natDigitsAux_spec :
    ∀ fuel n acc, n < fuel →
      ∃ ds : PyStr, natDigitsAux fuel n acc = ds ++ acc ∧ ds ≠ [] ∧
        (∀ c ∈ ds, isDig c = true) ∧
        ∀ a : Nat, ds.foldl (fun x c => 10 * x + (c.toNat - 48)) a = a * 10 ^ ds.length + n := by
  intro fuel
  induction fuel with
  | zero => intro n acc h; omega
  | succ f ih =>
    intro n acc h
    by_cases hn : n < 10
    · refine ⟨[Char.ofNat (48 + n)], by simp [natDigitsAux, hn], by simp, ?_, ?_⟩
      · intro c hc
        simp only [List.mem_singleton] at hc
        subst hc
        interval_cases n <;> decide
      · intro a
        have hv : (Char.ofNat (48 + n)).toNat - 48 = n := by interval_cases n <;> decide
        simp only [List.foldl, List.length_singleton, pow_one, hv]
        ring
    · have hdlt : n / 10 < n := Nat.div_lt_self (by omega) (by omega)
      obtain ⟨ds, h1, h2, h3, h4⟩ := ih (n / 10) (Char.ofNat (48 + n % 10) :: acc) (by omega)
      have hm : n % 10 < 10 := Nat.mod_lt _ (by omega)
      have hvd : isDig (Char.ofNat (48 + n % 10)) = true := by
        set m := n % 10 with hmdef
        clear_value m
        interval_cases m <;> decide
      have hvv : (Char.ofNat (48 + n % 10)).toNat - 48 = n % 10 := by
        set m := n % 10 with hmdef
        clear_value m
        interval_cases m <;> decide
      refine ⟨ds ++ [Char.ofNat (48 + n % 10)], ?_, by simp, ?_, ?_⟩
      · simp only [natDigitsAux, if_neg hn, h1, List.append_assoc, List.singleton_append]
      · intro c hc
        rcases List.mem_append.1 hc with hc | hc
        · exact h3 c hc
        · simp only [List.mem_singleton] at hc
          subst hc
          exact hvd
      · intro a
        rw [List.foldl_append, h4 a]
        have hdm : 10 * (n / 10) + n % 10 = n := by omega
        calc (List.foldl (fun x c => 10 * x + (c.toNat - 48)) (a * 10 ^ ds.length + n / 10)
                [Char.ofNat (48 + n % 10)])
            = 10 * (a * 10 ^ ds.length + n / 10) + n % 10 := by
              simp only [List.foldl, hvv]
          _ = a * (10 ^ ds.length * 10) + (10 * (n / 10) + n % 10) := by ring
          _ = a * 10 ^ (ds ++ [Char.ofNat (48 + n % 10)]).length + n := by
              rw [hdm, List.length_append, List.length_singleton, pow_succ]

theorem natDigits_spec (n : Nat) :
    natDigits n ≠ [] ∧ (∀ c ∈ natDigits n, isDig c = true) ∧ digitsVal (natDigits n) = n := by
  obtain ⟨ds, h1, h2, h3, h4⟩ := natDigitsAux_spec (n + 1) n [] (by omega)
  have he : natDigits n = ds := by rw [natDigits, h1, List.append_nil]
  refine ⟨by rw [he]; exact h2, by rw [he]; exact h3, ?_⟩
  rw [he]
  have := h4 0
  simpa [digitsVal] using this

theorem fmt02Nat_spec (n : Nat) :
    fmt02Nat n ≠ [] ∧ (∀ c ∈ fmt02Nat n, isDig c = true) ∧ digitsVal (fmt02Nat n) = n := by
  obtain ⟨h1, h2, h3⟩ := natDigits_spec n
  unfold fmt02Nat
  by_cases hn : n < 10
  · simp only [if_pos hn]
    refine ⟨by simp, ?_, ?_⟩
    · intro c hc
      rcases List.mem_cons.1 hc with hc | hc
      · subst hc; decide
      · exact h2 c hc
    · have : digitsVal ('0' :: natDigits n) =
          (natDigits n).foldl (fun x c => 10 * x + (c.toNat - 48)) 0 := by
        simp [digitsVal, List.foldl]
      rw [this]
      obtain ⟨ds, hd1, _, _, hd4⟩ := natDigitsAux_spec (n + 1) n [] (by omega)
      have he : natDigits n = ds := by rw [natDigits, hd1, List.append_nil]
      rw [he, hd4 0]
      simp
  · simp only [if_neg hn]
    exact ⟨h1, h2, h3⟩

theorem pyInt_digits {ds : PyStr} (h0 : ds ≠ []) (hd : ∀ c ∈ ds, isDig c = true) :
    pyInt ds = .ok ((digitsVal ds : Nat) : Int) := by
  have hstrip : pyStrip ds = ds := pyStrip_eq_self fun c hc => isDig_not_ws (hd c hc)
  cases ds with
  | nil => exact absurd rfl h0
  | cons c t =>
    have hc : isDig c = true := hd c (List.mem_cons_self _ _)
    have hm : (c == '-') = false := beq_eq_false_iff_ne.2 (isDig_ne_minus hc)
    have hp : (c == '+') = false := beq_eq_false_iff_ne.2 (isDig_ne_plus hc)
    have hall : (c :: t).all isDig = true := List.all_eq_true.2 hd
    simp only [pyInt, hstrip, List.headD_cons, hm, hp, Bool.or_self, Bool.false_or,
      if_neg Bool.false_ne_true, List.isEmpty_cons, Bool.not_false, Bool.true_and, hall,
      if_pos rfl]
    simp

theorem endsWithPlus_concat_plus (x : PyStr) : endsWithPlus (x ++ ['+']) = true := by
  simp [endsWithPlus, List.getLast?_concat]

theorem endsWithPlus_digits {x ds : PyStr} (h0 : ds ≠ [])
    (hd : ∀ c ∈ ds, isDig c = true) : endsWithPlus (x ++ ds) = false := by
  obtain ⟨c, hlast⟩ := Option.isSome_iff_exists.1 (List.getLast?_isSome.2 h0)
  have hcd : isDig c = true := hd c (List.mem_of_mem_getLast? hlast)
  unfold endsWithPlus
  rw [List.getLast?_append, hlast, show ((some c).or x.getLast?) = some c from rfl]
  refine beq_eq_false_iff_ne.2 fun hcc => ?_
  exact isDig_ne_plus hcd (Option.some.inj hcc)

theorem rstripPlus_concat_plus {x : PyStr} (hx : ∀ c, x.getLast? = some c → ¬c = '+') :
    rstripPlus (x ++ ['+']) = x := by
  unfold rstripPlus
  have hdw : x.reverse.dropWhile (· == '+') = x.reverse := by
    refine dropWhile_eq_self_of_head fun a ha => ?_
    rw [List.head?_reverse] at ha
    exact beq_eq_false_iff_ne.2 (hx a ha)
  rw [List.reverse_append]
  simp [List.dropWhile_cons, hdw]

theorem pyIdx_pair_one {α : Type} (x y : α) : pyIdx [x, y] 1 = .ok y := rfl

theorem tokenize_render {m1 m2 : PyStr} (hm1 : m1 ≠ []) (hd1 : ∀ c ∈ m1, isDig c = true)
    (hm2 : m2 ≠ []) (hd2 : ∀ c ∈ m2, isDig c = true) (h eh : Nat) (plus : Bool) :
    tokenize (renderToken h m1 eh m2 plus) =
      .ok (some (((h : Nat) : Int), ((digitsVal m1 : Nat) : Int),
        ((eh : Nat) : Int), ((digitsVal m2 : Nat) : Int), plus)) := by
  obtain ⟨hfh1, hfh2, hfh3⟩ := fmt02Nat_spec h
  obtain ⟨hfe1, hfe2, hfe3⟩ := fmt02Nat_spec eh
  set A : PyStr := fmt02Nat h ++ ':' :: m1 with hA
  set B : PyStr := fmt02Nat eh ++ ':' :: (m2 ++ (if plus then ['+'] else [])) with hB
  have hre : renderToken h m1 eh m2 plus = A ++ '/' :: B := by
    simp [renderToken, hA, hB, List.append_assoc]
  have hAchars : ∀ c ∈ A, isDig c = true ∨ c = ':' := by
    intro c hc
    rw [hA] at hc
    rcases List.mem_append.1 hc with hc | hc
    · exact Or.inl (hfh2 c hc)
    · rcases List.mem_cons.1 hc with hc | hc
      · exact Or.inr hc
      · exact Or.inl (hd1 c hc)
  have hBchars : ∀ c ∈ B, isDig c = true ∨ c = ':' ∨ c = '+' := by
    intro c hc
    rw [hB] at hc
    rcases List.mem_append.1 hc with hc | hc
    · exact Or.inl (hfe2 c hc)
    · rcases List.mem_cons.1 hc with hc | hc
      · exact Or.inr (Or.inl hc)
      · rcases List.mem_append.1 hc with hc | hc
        · exact Or.inl (hd2 c hc)
        · cases plus with
          | true => simp at hc; exact Or.inr (Or.inr hc)
          | false => simp at hc
  have hws : ∀ c ∈ A ++ '/' :: B, pyWs c = false := by
    intro c hc
    rcases List.mem_append.1 hc with hc | hc
    · rcases hAchars c hc with hd | rfl
      · exact isDig_not_ws hd
      · decide
    · rcases List.mem_cons.1 hc with rfl | hc
      · decide
      · rcases hBchars c hc with hd | rfl | rfl
        · exact isDig_not_ws hd
        · decide
        · decide
  have hstrip : pyStrip (A ++ '/' :: B) = A ++ '/' :: B := pyStrip_eq_self hws
  have hAnoslash : ∀ c ∈ A, ¬c = '/' := by
    intro c hc
    rcases hAchars c hc with hd | rfl
    · exact isDig_ne_slash hd
    · decide
  have hBnoslash : ∀ c ∈ B, ¬c = '/' := by
    intro c hc
    rcases hBchars c hc with hd | rfl | rfl
    · exact isDig_ne_slash hd
    · decide
    · decide
  have hsplit : pySplit '/' (A ++ '/' :: B) = [A, B] := by
    rw [pySplit_append hAnoslash, pySplit_no_sep hBnoslash]
  have hstripA : pyStrip A = A := by
    refine pyStrip_eq_self fun c hc => ?_
    rcases hAchars c hc with hd | rfl
    · exact isDig_not_ws hd
    · decide
  have hstripB : pyStrip B = B := by
    refine pyStrip_eq_self fun c hc => ?_
    rcases hBchars c hc with hd | rfl | rfl
    · exact isDig_not_ws hd
    · decide
    · decide
  have hm2last : ∀ c, (fmt02Nat eh ++ ':' :: m2).getLast? = some c → ¬c = '+' := by
    intro c hlc
    have : (fmt02Nat eh ++ ':' :: m2).getLast? = m2.getLast? := by
      rw [show fmt02Nat eh ++ ':' :: m2 = (fmt02Nat eh ++ [':']) ++ m2 by
            simp [List.append_assoc]]
      rw [List.getLast?_append]
      obtain ⟨d, hd⟩ := Option.isSome_iff_exists.1 (List.getLast?_isSome.2 hm2)
      rw [hd]
      rfl
    rw [this] at hlc
    exact isDig_ne_plus (hd2 c (List.mem_of_mem_getLast? hlc))
  have hplus : endsWithPlus B = plus := by
    cases plus with
    | true =>
      rw [hB]
      show endsWithPlus (fmt02Nat eh ++ ':' :: (m2 ++ ['+'])) = true
      rw [show fmt02Nat eh ++ ':' :: (m2 ++ ['+']) = (fmt02Nat eh ++ ':' :: m2) ++ ['+'] by
            simp [List.append_assoc]]
      exact endsWithPlus_concat_plus _
    | false =>
      rw [hB]
      show endsWithPlus (fmt02Nat eh ++ ':' :: (m2 ++ [])) = false
      rw [show fmt02Nat eh ++ ':' :: (m2 ++ []) = (fmt02Nat eh ++ [':']) ++ m2 by
            simp [List.append_assoc]]
      exact endsWithPlus_digits hm2 hd2
  have hendStr : (if plus = true then rstripPlus B else B) = fmt02Nat eh ++ ':' :: m2 := by
    cases plus with
    | true =>
      show rstripPlus B = _
      rw [hB]
      show rstripPlus (fmt02Nat eh ++ ':' :: (m2 ++ ['+'])) = _
      rw [show fmt02Nat eh ++ ':' :: (m2 ++ ['+']) = (fmt02Nat eh ++ ':' :: m2) ++ ['+'] by
            simp [List.append_assoc]]
      exact rstripPlus_concat_plus hm2last
    | false =>
      show B = _
      rw [hB]
      simp
  have hAnocolon : ∀ c ∈ fmt02Nat h, ¬c = ':' := fun c hc => isDig_ne_colon (hfh2 c hc)
  have hm1nocolon : ∀ c ∈ m1, ¬c = ':' := fun c hc => isDig_ne_colon (hd1 c hc)
  have hspA : pySplit ':' A = [fmt02Nat h, m1] := by
    rw [hA, pySplit_append hAnocolon, pySplit_no_sep hm1nocolon]
  have hEnocolon : ∀ c ∈ fmt02Nat eh, ¬c = ':' := fun c hc => isDig_ne_colon (hfe2 c hc)
  have hm2nocolon : ∀ c ∈ m2, ¬c = ':' := fun c hc => isDig_ne_colon (hd2 c hc)
  have hspE : pySplit ':' (fmt02Nat eh ++ ':' :: m2) = [fmt02Nat eh, m2] := by
    rw [pySplit_append hEnocolon, pySplit_no_sep hm2nocolon]
  have hIntH : pyInt (fmt02Nat h) = .ok ((h : Nat) : Int) := by
    rw [pyInt_digits hfh1 hfh2, hfh3]
  have hIntE : pyInt (fmt02Nat eh) = .ok ((eh : Nat) : Int) := by
    rw [pyInt_digits hfe1 hfe2, hfe3]
  have hIntM1 : pyInt m1 = .ok ((digitsVal m1 : Nat) : Int) := pyInt_digits hm1 hd1
  have hIntM2 : pyInt m2 = .ok ((digitsVal m2 : Nat) : Int) := pyInt_digits hm2 hd2
  rw [hre]
  unfold tokenize
  rw [hstrip, hsplit]
  simp only [hstripA, hstripB, hplus, hendStr, hspA, hspE, List.headD_cons,
    pyIdx_pair_one, bind, Except.bind, hIntH, hIntE, hIntM1, hIntM2, pure, Except.pure]

theorem matchToken_inv {t : PyStr} {hh : Nat} {m1 : PyStr} {ehh : Nat} {m2 : PyStr}
    {plus : Bool} (hm : matchToken t = some (hh, m1, ehh, m2, plus)) :
    m1 ≠ [] ∧ (∀ c ∈ m1, isDig c = true) ∧ m2 ≠ [] ∧ (∀ c ∈ m2, isDig c = true) := by
  unfold matchToken at hm
  split at hm
  · split at hm
    · simp only [] at hm
      split at hm <;> split at hm <;>
        first
        | exact Option.noConfusion hm
        | · rename_i hcond
            injection hm with hm
            simp only [Prod.mk.injEq] at hm
            obtain ⟨-, hm1eq, -, hm2eq, -⟩ := hm
            subst hm1eq
            subst hm2eq
            simp only [Bool.and_eq_true, Bool.or_eq_true, beq_iff_eq] at hcond
            obtain ⟨⟨⟨⟨⟨⟨⟨hl1, ha1⟩, hlm1⟩, ham1⟩, hl2⟩, ha2⟩, hlm2⟩, ham2⟩ := hcond
            refine ⟨?_, List.all_eq_true.1 ham1, ?_, List.all_eq_true.1 ham2⟩
            · intro he
              rw [he] at hlm1
              simp at hlm1
            · intro he
              rw [he] at hlm2
              simp at hlm2
    · exact Option.noConfusion hm
  · exact Option.noConfusion hm

theorem normalize_some_elim {v : CellVal} {t : PyStr}
    (h : normalize_time_str v = some t) :
    ∃ (hh : Nat) (m1 : PyStr) (ehh : Nat) (m2 : PyStr) (plus : Bool),
      t = renderToken hh m1 ehh m2 plus ∧
      m1 ≠ [] ∧ (∀ c ∈ m1, isDig c = true) ∧ m2 ≠ [] ∧ (∀ c ∈ m2, isDig c = true) := by
  unfold normalize_time_str at h
  split at h
  · exact Option.noConfusion h
  · exact Option.noConfusion h
  · exact Option.noConfusion h
  · simp only [] at h
    split at h
    · exact Option.noConfusion h
    · split at h
      · rename_i hh m1 ehh m2 plus hmt
        injection h with h
        obtain ⟨h1, h2, h3, h4⟩ := matchToken_inv hmt
        exact ⟨hh, m1, ehh, m2, plus, h.symm, h1, h2, h3, h4⟩
      · exact Option.noConfusion h

theorem resolveFields_ok_elim {day sh sm eh em : Int} {plus : Bool} {p : Int × Int}
    (h : resolveFields day sh sm eh em plus = .ok p) :
    p.1 = naiveStart day sh sm ∧
    p.2 = (if plus ∨ naiveEnd day eh em ≤ naiveStart day sh sm
           then naiveEnd day eh em + 1440 else naiveEnd day eh em) ∧
    0 ≤ sm ∧ sm < 60 ∧ 0 ≤ em ∧ em < 60 ∧
    0 ≤ (if sh ≥ 24 then sh - 24 else sh) ∧ (if sh ≥ 24 then sh - 24 else sh) < 24 ∧
    0 ≤ (if eh ≥ 24 then eh - 24 else eh) ∧ (if eh ≥ 24 then eh - 24 else eh) < 24 := by
  unfold resolveFields at h
  simp only [] at h
  by_cases hc : (0 ≤ (if sh ≥ 24 then sh - 24 else sh) ∧ (if sh ≥ 24 then sh - 24 else sh) < 24 ∧
      0 ≤ sm ∧ sm < 60 ∧ 0 ≤ (if eh ≥ 24 then eh - 24 else eh) ∧
      (if eh ≥ 24 then eh - 24 else eh) < 24 ∧ 0 ≤ em ∧ em < 60)
  · rw [if_pos hc] at h
    injection h with h
    subst h
    obtain ⟨c1, c2, c3, c4, c5, c6, c7, c8⟩ := hc
    exact ⟨rfl, rfl, c3, c4, c7, c8, c1, c2, c5, c6⟩
  · rw [if_neg hc] at h
    exact Except.noConfusion h

theorem parse_time_of_tok {s : PyStr} {day : Int} {sh sm eh em : Int} {plus : Bool}
    (htok : tokenize s = .ok (some (sh, sm, eh, em, plus))) :
    parse_time s day = Except.map some (resolveFields day sh sm eh em plus) := by
  unfold parse_time
  rw [htok]
  cases hrf : resolveFields day sh sm eh em plus with
  | error e => simp [bind, Except.bind, Except.map, pure, Except.pure, hrf]
  | ok q => simp [bind, Except.bind, Except.map, pure, Except.pure, hrf]

theorem parse_time_ok_elim {s : PyStr} {day : Int} {sh sm eh em : Int} {plus : Bool}
    {p : Int × Int} (htok : tokenize s = .ok (some (sh, sm, eh, em, plus)))
    (hp : parse_time s day = .ok (some p)) :
    resolveFields day sh sm eh em plus = .ok p := by
  rw [parse_time_of_tok htok] at hp
  cases hrf : resolveFields day sh sm eh em plus with
  | error e => rw [hrf] at hp; simp [Except.map] at hp
  | ok q =>
    rw [hrf] at hp
    simp only [Except.map] at hp
    injection hp with hp
    injection hp with hp
    rw [hp]

/-! ### Claim theorems: the time resolver (C1, C6, C7) -/

/-- C1: for every valid time token resolved against a reference date, the
resolved start is the naive start; without a trailing `+`, the resolved end
is the naive same-day end pushed by exactly 24 hours when it is not strictly
after the start, and the naive end unchanged otherwise; with a `+` the push
is applied exactly once (never twice), the end being exactly the naive end
plus 24 hours. -/
theorem c1_implicit_overnight (s : PyStr) (day sh sm eh em : Int) (plus : Bool)
    (htok : tokenize s = .ok (some (sh, sm, eh, em, plus)))
    (p : Int × Int) (hp : parse_time s day = .ok (some p)) :
    p.1 = naiveStart day sh sm ∧
    (plus = false →
      p.2 = if naiveEnd day eh em ≤ naiveStart day sh sm
            then naiveEnd day eh em + 1440 else naiveEnd day eh em) ∧
    (plus = true → p.2 = naiveEnd day eh em + 1440) := by
  obtain ⟨h1, h2, -⟩ := resolveFields_ok_elim (parse_time_ok_elim htok hp)
  refine ⟨h1, ?_, ?_⟩
  · intro hpl
    subst hpl
    simpa using h2
  · intro hpl
    subst hpl
    simpa using h2

theorem c1_implicit_overnight_witness :
    tokenize (cs "22:00/01:00") = .ok (some (22, 0, 1, 0, false)) ∧
    parse_time (cs "22:00/01:00") 0 = .ok (some (1320, 1500)) ∧
    (((1320 : Int), (1500 : Int)).1 = naiveStart 0 22 0 ∧
     (false = false →
       ((1320 : Int), (1500 : Int)).2 = if naiveEnd 0 1 0 ≤ naiveStart 0 22 0
          then naiveEnd 0 1 0 + 1440 else naiveEnd 0 1 0) ∧
     (false = true → ((1320 : Int), (1500 : Int)).2 = naiveEnd 0 1 0 + 1440)) :=
  ⟨by decide, by decide,
    c1_implicit_overnight (cs "22:00/01:00") 0 22 0 1 0 false (by decide)
      ((1320 : Int), (1500 : Int)) (by decide)⟩

/-- C6 counterexample: the token `"08:99/10:00"` has the right shape
(`normalize_time_str` accepts any two-digit minute field), cannot be
resolved (minute 99 is out of range for `datetime.replace`), yet the
resolver raises (`.error`) instead of yielding no result, and a roster
containing it aborts `parse_shifts` instead of being dropped with a
warning.  The last two conjuncts chart the hour field the same way: the
single `-24` carry makes hours 24-47 resolve to real instants of the next
day (`"25:00/26:00"` is day 0, 25:00-26:00), while hours 48-99 still reach
`datetime.replace` out of range and abort exactly like minutes 60-99. -/
theorem c6_counterexample :
    normalize_time_str (CellVal.str (cs "08:99/10:00")) = some (cs "08:99/10:00") ∧
    resolve_cell (CellVal.str (cs "08:99/10:00")) 0 = .error () ∧
    parse_shifts
      (fun r c => if r = 1 ∧ c = 'B' then CellVal.str (cs "VDC")
                  else if r = 2 ∧ c = 'B' then CellVal.str (cs "08:99/10:00")
                  else CellVal.none)
      (fun _ => 0) 1 [1, 2] = .error () ∧
    resolve_cell (CellVal.str (cs "25:00/26:00")) 0 = .ok (some (1500, 1560)) ∧
    resolve_cell (CellVal.str (cs "48:00/10:00")) 0 = .error () :=
  ⟨by decide, by decide, by decide, by decide, by decide⟩

/-- C6 (amended): a cell's token yields no result exactly when it fails the
shape check (non-string, `datetime`, empty, wrong shape, non-numeric); such
tokens never raise and are simply dropped.  A shape-valid token, however, is
never "no result": it either resolves or raises (minutes ≥ 60 or normalized
hours ≥ 24 raise `ValueError` and abort the run, as the counterexample
shows). -/
theorem c6_amended_no_raise (v : CellVal) (day : Int) :
    normalize_time_str v = Option.none ↔ resolve_cell v day = .ok Option.none := by
  constructor
  · intro h
    unfold resolve_cell
    rw [h]
  · intro h
    by_contra hne
    cases hnv : normalize_time_str v with
    | none => exact hne hnv
    | some t =>
      unfold resolve_cell at h
      rw [hnv] at h
      simp only [] at h
      obtain ⟨hh, m1, ehh, m2, plus, rfl, h1, h2, h3, h4⟩ := normalize_some_elim hnv
      rw [parse_time_of_tok (tokenize_render h1 h2 h3 h4 hh ehh plus)] at h
      cases hrf : resolveFields day hh (digitsVal m1) ehh (digitsVal m2) plus with
      | error e => rw [hrf] at h; simp [Except.map] at h
      | ok q => rw [hrf] at h; simp [Except.map] at h

/-- C7 counterexample: the valid token `"24:30/23:00+"` has a trailing `+`,
but because its start hour is ≥ 24 the start instant already falls on the
next day, and the resolved end (also next day, 23:00) is not at least one
day after the start instant's date. -/
theorem c7_counterexample :
    parse_time (cs "24:30/23:00+") 0 = .ok (some (1470, 2820)) ∧
    dayOf 2820 < dayOf 1470 + 1 :=
  ⟨by decide, by decide⟩

/-- C7 (amended): for every valid token with a trailing `+` whose start-hour
field is below 24 (so the start instant falls on the reference date), the
resolved end instant falls at least one day after the start instant's date,
even when the naive same-day end time is already strictly later than the
start time. -/
theorem c7_explicit_next_day (s : PyStr) (day sh sm eh em : Int)
    (htok : tokenize s = .ok (some (sh, sm, eh, em, true))) (hsh : sh < 24)
    (p : Int × Int) (hp : parse_time s day = .ok (some p)) :
    dayOf p.1 + 1 ≤ dayOf p.2 := by
  obtain ⟨h1, h2, c3, c4, c5, c6, c7, c8, c9, c10⟩ :=
    resolveFields_ok_elim (parse_time_ok_elim htok hp)
  have hshf : ¬sh ≥ 24 := by omega
  rw [if_pos (Or.inl rfl)] at h2
  unfold naiveStart at h1
  unfold naiveEnd at h2
  simp only [if_neg hshf] at h1 c7 c8
  unfold dayOf
  by_cases heh : eh ≥ 24
  · simp only [if_pos heh] at h2 c9 c10
    omega
  · simp only [if_neg heh] at h2 c9 c10
    omega

theorem c7_explicit_next_day_witness :
    tokenize (cs "19:00/00:30+") = .ok (some (19, 0, 0, 30, true)) ∧
    (19 : Int) < 24 ∧
    parse_time (cs "19:00/00:30+") 0 = .ok (some (1140, 1470)) ∧
    dayOf ((1140 : Int), (1470 : Int)).1 + 1 ≤ dayOf ((1140 : Int), (1470 : Int)).2 :=
  ⟨by decide, by decide, by decide,
    c7_explicit_next_day (cs "19:00/00:30+") 0 19 0 0 30 (by decide) (by decide)
      ((1140 : Int), (1470 : Int)) (by decide)⟩

/-! ### Lemmas about the roster scan, and claim C8 -/

theorem resolveFields_start_lt_stop {day sh sm eh em : Int} {plus : Bool} {p : Int × Int}
    (h : resolveFields day sh sm eh em plus = .ok p) (hsh : sh < 24) : p.1 < p.2 := by
  obtain ⟨h1, h2, c3, c4, c5, c6, c7, c8, c9, c10⟩ := resolveFields_ok_elim h
  have hshf : ¬sh ≥ 24 := by omega
  unfold naiveStart at h1 h2
  unfold naiveEnd at h2
  simp only [if_neg hshf] at h1 h2 c7 c8
  by_cases heh : eh ≥ 24
  · simp only [if_pos heh] at h2 c9 c10
    split at h2
    · omega
    · rename_i hcond
      obtain ⟨-, hgt⟩ := not_or.1 hcond
      omega
  · simp only [if_neg heh] at h2 c9 c10
    split at h2
    · omega
    · rename_i hcond
      obtain ⟨-, hgt⟩ := not_or.1 hcond
      omega

theorem alistGet_mem {κ α : Type} [DecidableEq κ] {l : List (κ × α)} {k : κ} {v : α}
    (h : alistGet? l k = some v) : (k, v) ∈ l := by
  induction l with
  | nil => exact Option.noConfusion h
  | cons p t ih =>
    unfold alistGet? at h
    split at h
    · rename_i heq
      injection h with h
      subst h
      subst heq
      exact List.mem_cons_self _ _
    · exact List.mem_cons_of_mem _ (ih h)

theorem collectTimes_mem {grid : Nat → Char → CellVal} {trow : Nat} {col : Char} {tok : PyStr}
    (h : (col, tok) ∈ (collectTimes grid trow).1) :
    normalize_time_str (grid trow col) = some tok := by
  unfold collectTimes at h
  simp only [List.mem_filterMap] at h
  obtain ⟨c, -, hc⟩ := h
  cases hn : normalize_time_str (grid trow c) with
  | none => rw [hn] at hc; exact Option.noConfusion hc
  | some t =>
    rw [hn, Option.map_some'] at hc
    injection hc with hc
    injection hc with h1 h2
    subst h1
    subst h2
    exact hn

theorem normalize_some_is_str {v : CellVal} {t : PyStr}
    (h : normalize_time_str v = some t) : ∃ s, v = CellVal.str s := by
  cases v with
  | str s => exact ⟨s, rfl⟩
  | none => exact Option.noConfusion h
  | dtime a b => exact Option.noConfusion h
  | other => exact Option.noConfusion h

theorem normalize_str_elim {s t : PyStr} (h : normalize_time_str (CellVal.str s) = some t) :
    ∃ (hh : Nat) (m1 : PyStr) (ehh : Nat) (m2 : PyStr) (plus : Bool),
      matchToken (pyStrip s) = some (hh, m1, ehh, m2, plus) ∧
      t = renderToken hh m1 ehh m2 plus := by
  unfold normalize_time_str at h
  split at h
  · exact Option.noConfusion h
  · exact Option.noConfusion h
  · exact Option.noConfusion h
  · rename_i s' heq
    injection heq with heq
    subst heq
    simp only [] at h
    split at h
    · exact Option.noConfusion h
    · split at h
      · rename_i hh m1 ehh m2 plus hmt
        injection h with h
        exact ⟨hh, m1, ehh, m2, plus, hmt, h.symm⟩
      · exact Option.noConfusion h

theorem processCodes_events {dates : Char → Int} {week row : Nat}
    {codes times : List (Char × PyStr)} {res : List ShiftEvent × List Warning}
    (h : processCodes dates week row codes times = .ok res) :
    ∀ ev ∈ res.1, ∃ col tok p, alistGet? times col = some tok ∧
      parse_time tok (dates col) = .ok (some p) ∧ ev.start = p.1 ∧ ev.stop = p.2 := by
  induction codes generalizing res with
  | nil =>
    unfold processCodes at h
    injection h with h
    subst h
    intro ev hev
    exact absurd hev (List.not_mem_nil ev)
  | cons cc t ih =>
    obtain ⟨col, code⟩ := cc
    unfold processCodes at h
    cases hg : alistGet? times col with
    | some tok =>
      rw [hg] at h
      simp only [bind, Except.bind] at h
      cases hpt : parse_time tok (dates col) with
      | error e => rw [hpt] at h; exact Except.noConfusion h
      | ok po =>
        rw [hpt] at h
        cases hrec : processCodes dates week row t times with
        | error e => rw [hrec] at h; exact Except.noConfusion h
        | ok pr =>
          rw [hrec] at h
          cases po with
          | none =>
            injection h with h
            subst h
            exact fun ev hev => ih hrec ev hev
          | some q =>
            obtain ⟨qs, qe⟩ := q
            injection h with h
            subst h
            intro ev hev
            rcases List.mem_cons.1 hev with rfl | hev
            · exact ⟨col, tok, (qs, qe), hg, hpt, rfl, rfl⟩
            · exact ih hrec ev hev
    | none =>
      rw [hg] at h
      simp only [bind, Except.bind] at h
      cases hrec : processCodes dates week row t times with
      | error e => rw [hrec] at h; exact Except.noConfusion h
      | ok pr =>
        rw [hrec] at h
        injection h with h
        subst h
        exact fun ev hev => ih hrec ev hev

theorem parseShiftsGo_events {grid : Nat → Char → CellVal} {dates : Char → Int} {week : Nat} :
    ∀ (n : Nat) (rows : List Nat), rows.length ≤ n →
      ∀ res, parseShiftsGo grid dates week rows = .ok res →
      ∀ ev ∈ res.1, ∃ trow col tok p,
        normalize_time_str (grid trow col) = some tok ∧
        parse_time tok (dates col) = .ok (some p) ∧ ev.start = p.1 ∧ ev.stop = p.2 := by
  intro n
  induction n with
  | zero =>
    intro rows hlen res h ev hev
    rw [List.length_eq_zero.1 (Nat.le_zero.1 hlen)] at h
    unfold parseShiftsGo at h
    injection h with h
    subst h
    exact absurd hev (List.not_mem_nil ev)
  | succ m ih =>
    intro rows hlen res h ev hev
    cases rows with
    | nil =>
      unfold parseShiftsGo at h
      injection h with h
      subst h
      exact absurd hev (List.not_mem_nil ev)
    | cons row rest =>
      unfold parseShiftsGo at h
      by_cases hcode : (collectCodes grid row).isEmpty
      · rw [if_pos hcode] at h
        exact ih rest (by simp at hlen; omega) res h ev hev
      · rw [if_neg hcode] at h
        cases rest with
        | nil =>
          simp only [bind, Except.bind] at h
          cases hpc : processCodes dates week row (collectCodes grid row) [] with
          | error e => rw [hpc] at h; exact Except.noConfusion h
          | ok pr =>
            rw [hpc] at h
            injection h with h
            subst h
            obtain ⟨col, tok, p, hg, -, -⟩ := processCodes_events hpc ev hev
            exact absurd hg (by simp [alistGet?])
        | cons trow rest2 =>
          simp only [bind, Except.bind] at h
          cases hpc : processCodes dates week row (collectCodes grid row)
              (collectTimes grid trow).1 with
          | error e => rw [hpc] at h; exact Except.noConfusion h
          | ok pr =>
            rw [hpc] at h
            cases hgo : parseShiftsGo grid dates week rest2 with
            | error e => rw [hgo] at h; exact Except.noConfusion h
            | ok pr2 =>
              rw [hgo] at h
              injection h with h
              subst h
              rcases List.mem_append.1 hev with hev | hev
              · obtain ⟨col, tok, p, hg, hpt, h1, h2⟩ := processCodes_events hpc ev hev
                exact ⟨trow, col, tok, p, collectTimes_mem (alistGet_mem hg), hpt, h1, h2⟩
              · exact ih rest2 (by simp at hlen; omega) pr2 hgo ev hev

theorem parse_shifts_events {grid : Nat → Char → CellVal} {dates : Char → Int} {week : Nat}
    {rows : List Nat} {res : List ShiftEvent × List Warning}
    (h : parse_shifts grid dates week rows = .ok res) :
    ∀ ev ∈ res.1, ∃ trow col tok p,
      normalize_time_str (grid trow col) = some tok ∧
      parse_time tok (dates col) = .ok (some p) ∧ ev.start = p.1 ∧ ev.stop = p.2 := by
  unfold parse_shifts at h
  simp only [bind, Except.bind] at h
  cases hgo : parseShiftsGo grid dates week rows with
  | error e => rw [hgo] at h; exact Except.noConfusion h
  | ok pr =>
    rw [hgo] at h
    injection h with h
    subst h
    intro ev hev
    have hmem : ev ∈ pr.1 :=
      (List.Perm.mem_iff (List.perm_insertionSort _ pr.1)).1 hev
    exact parseShiftsGo_events rows.length rows (Nat.le_refl _) pr hgo ev hmem

/-- C8 counterexample: on the shape-valid token `"24:00/00:00"` the resolver
does not fail and returns a pair whose end instant equals (is not strictly
after) the start instant: the start hour ≥ 24 puts the start on the next
day, and the implicit overnight push of the end only reaches the same
instant. -/
theorem c8_counterexample :
    parse_time (cs "24:00/00:00") 0 = .ok (some (1440, 1440)) ∧ ¬(1440 : Int) < 1440 :=
  ⟨by decide, by decide⟩

/-- C8 (amended): restricted to tokens whose start-hour field is below 24,
the invariant holds: the resolver either fails or returns a pair with the
end strictly after the start, and every `ShiftEvent` emitted by
`parse_shifts` from such a roster has its end strictly after its start. -/
theorem c8_end_after_start :
    (∀ (s : PyStr) (day sh sm eh em : Int) (plus : Bool),
      tokenize s = .ok (some (sh, sm, eh, em, plus)) → sh < 24 →
      ∀ p : Int × Int, parse_time s day = .ok (some p) → p.1 < p.2) ∧
    (∀ (grid : Nat → Char → CellVal) (dates : Char → Int) (week : Nat) (rows : List Nat),
      (∀ (r : Nat) (c : Char) (s : PyStr) (hh : Nat) (m1 : PyStr) (ehh : Nat) (m2 : PyStr)
        (pl : Bool), grid r c = CellVal.str s →
        matchToken (pyStrip s) = some (hh, m1, ehh, m2, pl) → hh < 24) →
      ∀ res, parse_shifts grid dates week rows = .ok res →
      ∀ ev ∈ res.1, ev.start < ev.stop) := by
  constructor
  · intro s day sh sm eh em plus htok hsh p hp
    exact resolveFields_start_lt_stop (parse_time_ok_elim htok hp) hsh
  · intro grid dates week rows hgrid res h ev hev
    obtain ⟨trow, col, tok, p, hnorm, hpt, h1, h2⟩ := parse_shifts_events h ev hev
    obtain ⟨s0, hs0⟩ := normalize_some_is_str hnorm
    rw [hs0] at hnorm
    obtain ⟨hh, m1, ehh, m2, pl, hmt, rfl⟩ := normalize_str_elim hnorm
    have hh24 : hh < 24 := hgrid trow col s0 hh m1 ehh m2 pl hs0 hmt
    obtain ⟨d1, d2, d3, d4⟩ := matchToken_inv hmt
    have hrf := parse_time_ok_elim (tokenize_render d1 d2 d3 d4 hh ehh pl) hpt
    have hlt : p.1 < p.2 := resolveFields_start_lt_stop hrf (by exact_mod_cast hh24)
    rw [h1, h2]
    exact hlt

theorem c8_end_after_start_witness :
    (1320 : Int) < 1500 ∧
    ∀ ev ∈ [ShiftEvent.mk (cs "ANNIV") (cs "Anniversaire") 6900 7230 7],
      ev.start < ev.stop := by
  constructor
  · exact c8_end_after_start.1 (cs "22:00/01:00") 0 22 0 1 0 false (by decide) (by decide)
      ((1320 : Int), (1500 : Int)) (by decide)
  · intro ev hev
    refine c8_end_after_start.2
      (fun r c => if r = 1 ∧ c = 'B' then CellVal.str (cs "ANNIV")
                  else if r = 2 ∧ c = 'B' then CellVal.str (cs "19:00/00:30+")
                  else CellVal.none)
      (fun _ => 4) 7 [1, 2] ?_
      ([ShiftEvent.mk (cs "ANNIV") (cs "Anniversaire") 6900 7230 7], [])
      (by decide) ev hev
    intro r c s hh m1 ehh m2 pl hg hmt
    by_cases hc1 : r = 1 ∧ c = 'B'
    · simp only [if_pos hc1] at hg
      injection hg with hg
      subst hg
      rw [show matchToken (pyStrip (cs "ANNIV")) = Option.none from by decide] at hmt
      exact Option.noConfusion hmt
    · simp only [if_neg hc1] at hg
      by_cases hc2 : r = 2 ∧ c = 'B'
      · simp only [if_pos hc2] at hg
        injection hg with hg
        subst hg
        rw [show matchToken (pyStrip (cs "19:00/00:30+")) =
            some (19, cs "00", 0, cs "30", true) from by decide] at hmt
        injection hmt with hmt
        simp only [Prod.mk.injEq] at hmt
        omega
      · simp only [if_neg hc2] at hg
        exact CellVal.noConfusion hg

theorem processCodes_nil_times {dates : Char → Int} {week row : Nat} :
    ∀ codes : List (Char × PyStr),
      processCodes dates week row codes [] =
        .ok ([], codes.map fun p => Warning.codeNoTime row p.1 p.2) := by
  intro codes
  induction codes with
  | nil => rfl
  | cons cc t ih =>
    obtain ⟨col, code⟩ := cc
    unfold processCodes
    rw [show alistGet? ([] : List (Char × PyStr)) col = Option.none from rfl]
    simp only [bind, Except.bind, ih, List.map_cons]

/-- C9: an employee block whose scan reaches its final row with that row
being a code row (so there is no following time row) produces no events for
those codes but two warnings per code — one "code without a time row below"
and one "code without a time found" — in column order, and the parse still
returns normally (`.ok`).  The statement covers every such block: when the
scan of a longer block reaches its last row in seeking state, the recursion
is exactly `parseShiftsGo` on the one-row list, and a row without codes
produces no events and no warnings either way. -/
theorem c9_code_without_time_row (grid : Nat → Char → CellVal) (dates : Char → Int)
    (week row : Nat) :
    parse_shifts grid dates week [row] =
      .ok ([], ((collectCodes grid row).map fun p => Warning.codeNoTimeRow row p.1 p.2) ++
        ((collectCodes grid row).map fun p => Warning.codeNoTime row p.1 p.2)) := by
  unfold parse_shifts parseShiftsGo
  by_cases hc : (collectCodes grid row).isEmpty
  · rw [if_pos hc, List.isEmpty_iff.mp hc]
    unfold parseShiftsGo
    simp [bind, Except.bind, sortByStart, List.insertionSort]
  · rw [if_neg hc]
    rw [processCodes_nil_times]
    simp [bind, Except.bind, sortByStart, List.insertionSort]

/-! ### UTF-8 and folding lemmas, and claims C2, C3 -/

theorem pyEncode_cons (c : Char) (t : List Char) :
    pyEncode (c :: t) = utf8Char c ++ pyEncode t := List.flatMap_cons ..

theorem pyEncode_append (a b : List Char) :
    pyEncode (a ++ b) = pyEncode a ++ pyEncode b := List.flatMap_append ..

theorem utf8Char_ne_nil (c : Char) : utf8Char c ≠ [] := by
  unfold utf8Char
  split_ifs <;> simp

theorem utf8Char_length_le (c : Char) : (utf8Char c).length ≤ 4 := by
  unfold utf8Char
  split_ifs <;> simp

theorem utf8Char_head_not_cont (c : Char) : contByte ((utf8Char c).getD 0 0) = false := by
  unfold utf8Char
  split_ifs with h1 h2 h3 <;> simp [contByte] <;> omega

theorem utf8Char_getD_cont (c : Char) :
    ∀ i, 1 ≤ i → i < (utf8Char c).length → contByte ((utf8Char c).getD i 0) = true := by
  intro i hi1 hi2
  unfold utf8Char at hi2 ⊢
  split_ifs at hi2 ⊢ with h1 h2 h3
  · simp at hi2; omega
  · simp at hi2
    interval_cases i
    · simp [contByte]; omega
  · simp at hi2
    interval_cases i
    · simp [contByte]; omega
    · simp [contByte]; omega
  · simp at hi2
    interval_cases i
    · simp [contByte]; omega
    · simp [contByte]; omega
    · simp [contByte]; omega

theorem backOff_le (bs : List Nat) : ∀ n, backOff bs n ≤ n := by
  intro n
  induction n with
  | zero => exact Nat.le_refl 0
  | succ m ih =>
    unfold backOff
    split
    · omega
    · exact Nat.le_refl _

theorem backOff_zero_of_cont (bs : List Nat) :
    ∀ j, (∀ i, 1 ≤ i → i ≤ j → contByte (bs.getD i 0) = true) → backOff bs j = 0 := by
  intro j
  induction j with
  | zero => intro _; rfl
  | succ m ih =>
    intro h
    unfold backOff
    rw [h (m + 1) (by omega) (Nat.le_refl _)]
    simp only [if_pos rfl]
    exact ih fun i h1 h2 => h i h1 (by omega)

theorem backOff_succ (bs : List Nat) (n : Nat) :
    backOff bs (n + 1) =
      if contByte (bs.getD (n + 1) 0) = true then backOff bs n else n + 1 := rfl

theorem backOff_append (u v : List Nat) :
    ∀ j, j < v.length → contByte (v.getD 0 0) = false →
      backOff (u ++ v) (u.length + j) = u.length + backOff v j := by
  intro j
  induction j with
  | zero =>
    intro hj hv
    rw [Nat.add_zero, show backOff v 0 = 0 from rfl, Nat.add_zero]
    have key : ∀ L, L = u.length → backOff (u ++ v) L = L := by
      intro L hL
      cases L with
      | zero => rfl
      | succ m =>
        rw [backOff_succ]
        rw [show (u ++ v).getD (m + 1) 0 = v.getD 0 0 by
            rw [List.getD_append_right u v 0 (m + 1) (by omega)]
            congr 1
            omega]
        rw [if_neg (by rw [hv]; simp)]
    exact key u.length rfl
  | succ m ih =>
    intro hj hv
    have hidx : (u ++ v).getD (u.length + m + 1) 0 = v.getD (m + 1) 0 := by
      rw [List.getD_append_right u v 0 (u.length + m + 1) (by omega)]
      congr 1
      omega
    rw [show u.length + (m + 1) = (u.length + m) + 1 by omega, backOff_succ, hidx,
      backOff_succ]
    cases hc : contByte (v.getD (m + 1) 0) with
    | true =>
      rw [if_pos rfl, if_pos rfl]
      exact ih (by omega) hv
    | false =>
      rw [if_neg (by simp), if_neg (by simp)]
      omega

theorem encode_backOff_split :
    ∀ (s : List Char) (cut : Nat), cut < (pyEncode s).length →
      ∃ s1 s2 : List Char, s = s1 ++ s2 ∧
        backOff (pyEncode s) cut = (pyEncode s1).length ∧
        (pyEncode s1).length ≤ cut ∧ cut < (pyEncode s1).length + 4 := by
  intro s
  induction s with
  | nil => intro cut hcut; simp [pyEncode] at hcut
  | cons c cs ih =>
    intro cut hcut
    rw [pyEncode_cons] at hcut
    by_cases hk : cut < (utf8Char c).length
    · refine ⟨[], c :: cs, rfl, ?_, by simp [pyEncode], ?_⟩
      · rw [pyEncode_cons]
        rw [show (pyEncode ([] : List Char)).length = 0 by simp [pyEncode]]
        refine backOff_zero_of_cont _ cut fun i h1 h2 => ?_
        rw [List.getD_append _ _ _ _ (by omega)]
        exact utf8Char_getD_cont c i h1 (by omega)
      · have := utf8Char_length_le c
        rw [show (pyEncode ([] : List Char)).length = 0 by simp [pyEncode]]
        omega
    · have hk' : (utf8Char c).length ≤ cut := by omega
      have hlt : cut - (utf8Char c).length < (pyEncode cs).length := by
        simp only [List.length_append] at hcut
        omega
      have hcs : cs ≠ [] := by
        intro he
        rw [he] at hlt
        simp [pyEncode] at hlt
      have hhead : contByte ((pyEncode cs).getD 0 0) = false := by
        cases cs with
        | nil => exact absurd rfl hcs
        | cons d ds =>
          rw [pyEncode_cons, List.getD_append _ _ _ _ (by
            have h1 := utf8Char_ne_nil d
            have h2 : 0 < (utf8Char d).length := List.length_pos.2 h1
            omega)]
          exact utf8Char_head_not_cont d
      obtain ⟨s1, s2, hsp, hbo, hle, hup⟩ := ih (cut - (utf8Char c).length) hlt
      refine ⟨c :: s1, s2, by rw [hsp]; rfl, ?_, ?_, ?_⟩
      · rw [pyEncode_cons]
        rw [show cut = (utf8Char c).length + (cut - (utf8Char c).length) by omega]
        rw [backOff_append _ _ _ hlt hhead, hbo, pyEncode_cons, List.length_append]
      · rw [pyEncode_cons, List.length_append]
        omega
      · rw [pyEncode_cons, List.length_append]
        omega

theorem foldPartsF_flatten : ∀ (fuel : Nat) (bs : List Nat) (first : Bool),
    (foldPartsF fuel bs first).flatten = bs := by
  intro fuel
  induction fuel with
  | zero => intro bs first; simp [foldPartsF]
  | succ f ih =>
    intro bs first
    unfold foldPartsF
    by_cases h75 : bs.length ≤ 75
    · rw [if_pos h75]
      by_cases hbe : bs.isEmpty
      · rw [if_pos hbe, List.isEmpty_iff.mp hbe]
        rfl
      · rw [if_neg hbe]
        simp
    · rw [if_neg h75]
      by_cases hz : backOff bs (if first = true then 75 else 74) = 0
      · rw [if_pos hz]
        simp
      · rw [if_neg hz]
        simp only [List.flatten_cons, ih]
        exact List.take_append_drop _ bs

theorem foldPartsF_ne_nil {fuel : Nat} {bs : List Nat} {first : Bool} (h : bs ≠ []) :
    foldPartsF fuel bs first ≠ [] := by
  cases fuel with
  | zero => simp [foldPartsF]
  | succ f =>
    unfold foldPartsF
    by_cases h75 : bs.length ≤ 75
    · rw [if_pos h75, if_neg (by simpa using h)]
      simp
    · rw [if_neg h75]
      by_cases hz : backOff bs (if first = true then 75 else 74) = 0
      · rw [if_pos hz]
        simp
      · rw [if_neg hz]
        simp

theorem foldPartsF_enc : ∀ (fuel : Nat) (s : List Char) (first : Bool),
    (pyEncode s).length ≤ fuel →
    (∀ p ∈ foldPartsF fuel (pyEncode s) first,
      (∃ t : List Char, p = pyEncode t) ∧ p.length ≤ 75) ∧
    (first = false →
      ∀ p ∈ (foldPartsF fuel (pyEncode s) first).dropLast, p.length ≤ 74) := by
  intro fuel
  induction fuel with
  | zero =>
    intro s first hlen
    have he : pyEncode s = [] := List.length_eq_zero.1 (Nat.le_zero.1 hlen)
    rw [he]
    constructor
    · intro p hp
      simp only [foldPartsF, List.mem_singleton] at hp
      subst hp
      exact ⟨⟨[], rfl⟩, by simp⟩
    · intro _ p hp
      simp [foldPartsF] at hp
  | succ f ih =>
    intro s first hlen
    by_cases h75 : (pyEncode s).length ≤ 75
    · constructor
      · intro p hp
        unfold foldPartsF at hp
        rw [if_pos h75] at hp
        by_cases hbe : (pyEncode s).isEmpty
        · rw [if_pos hbe] at hp
          simp at hp
        · rw [if_neg hbe] at hp
          simp only [List.mem_singleton] at hp
          subst hp
          exact ⟨⟨s, rfl⟩, h75⟩
      · intro _ p hp
        unfold foldPartsF at hp
        rw [if_pos h75] at hp
        by_cases hbe : (pyEncode s).isEmpty
        · rw [if_pos hbe] at hp
          simp at hp
        · rw [if_neg hbe] at hp
          simp at hp
    · have htlt : (if first = true then 75 else 74) < (pyEncode s).length := by
        cases first <;> simp <;> omega
      obtain ⟨s1, s2, hsp, hbo, hle, hup⟩ :=
        encode_backOff_split s (if first = true then 75 else 74) htlt
      have henc : pyEncode s = pyEncode s1 ++ pyEncode s2 := by
        rw [hsp, pyEncode_append]
      have hcut1 : 1 ≤ (pyEncode s1).length := by
        cases first <;> simp at hup hle ⊢ <;> omega
      have hz : ¬backOff (pyEncode s) (if first = true then 75 else 74) = 0 := by
        rw [hbo]
        omega
      have htake : (pyEncode s).take (backOff (pyEncode s) (if first = true then 75 else 74)) =
          pyEncode s1 := by
        rw [hbo, henc, List.take_left]
      have hdrop : (pyEncode s).drop (backOff (pyEncode s) (if first = true then 75 else 74)) =
          pyEncode s2 := by
        rw [hbo, henc, List.drop_left]
      have hlen2 : (pyEncode s2).length ≤ f := by
        have h1 : (pyEncode s).length = (pyEncode s1).length + (pyEncode s2).length := by
          rw [henc, List.length_append]
        omega
      have hunf : foldPartsF (f + 1) (pyEncode s) first =
          pyEncode s1 :: foldPartsF f (pyEncode s2) false := by
        unfold foldPartsF
        rw [if_neg h75, if_neg hz, htake, hdrop]
        cases f <;> rfl
      have hs2ne : pyEncode s2 ≠ [] := by
        intro he
        have h1 : (pyEncode s).length = (pyEncode s1).length + (pyEncode s2).length := by
          rw [henc, List.length_append]
        rw [he] at h1
        simp at h1
        cases first <;> simp at hle <;> omega
      obtain ⟨ih1, ih2⟩ := ih s2 false hlen2
      constructor
      · intro p hp
        rw [hunf] at hp
        rcases List.mem_cons.1 hp with rfl | hp
        · refine ⟨⟨s1, rfl⟩, ?_⟩
          cases first <;> simp at hle <;> omega
        · exact ih1 p hp
      · intro hf p hp
        subst hf
        rw [hunf] at hp
        rw [List.dropLast_cons_of_ne_nil (foldPartsF_ne_nil hs2ne)] at hp
        rcases List.mem_cons.1 hp with rfl | hp
        · simp at hle
          omega
        · exact ih2 rfl p hp

theorem foldParts_true_unfold (s : List Char) (h75 : ¬(pyEncode s).length ≤ 75) :
    ∃ s1 s2 : List Char, s = s1 ++ s2 ∧ (pyEncode s1).length ≤ 75 ∧
      (pyEncode s2).length ≤ (pyEncode s).length ∧ pyEncode s2 ≠ [] ∧
      foldParts (pyEncode s) true =
        pyEncode s1 :: foldPartsF (pyEncode s).length (pyEncode s2) false := by
  have htlt : (75 : Nat) < (pyEncode s).length := by omega
  obtain ⟨s1, s2, hsp, hbo, hle, hup⟩ := encode_backOff_split s 75 htlt
  have henc : pyEncode s = pyEncode s1 ++ pyEncode s2 := by rw [hsp, pyEncode_append]
  have hlensum : (pyEncode s).length = (pyEncode s1).length + (pyEncode s2).length := by
    rw [henc, List.length_append]
  have hz : ¬backOff (pyEncode s) 75 = 0 := by rw [hbo]; omega
  have hs2ne : pyEncode s2 ≠ [] := by
    intro he
    rw [he] at hlensum
    simp at hlensum
    omega
  refine ⟨s1, s2, hsp, by omega, by omega, hs2ne, ?_⟩
  unfold foldParts foldPartsF
  rw [if_neg h75]
  rw [show (if (true : Bool) = true then 75 else 74) = 75 from rfl]
  rw [if_neg hz, hbo]
  rw [show List.take (pyEncode s1).length (pyEncode s) = pyEncode s1 by
      rw [henc]; exact List.take_left _ _]
  rw [show List.drop (pyEncode s1).length (pyEncode s) = pyEncode s2 by
      rw [henc]; exact List.drop_left _ _]
  cases (pyEncode s).length <;> rfl

/-- C2 counterexample: a 150-byte ASCII line folds into a 75-byte first line
and a 76-byte continuation line (one space plus the 75-byte residue), so the
promised 75-byte bound is exceeded on the final line. -/
theorem c2_counterexample :
    (fold_line (pyEncode (List.replicate 150 'a'))).map List.length = [75, 76] := by
  decide

/-- C2 (amended): for every input line, every folded physical line except
the last is at most 75 encoded bytes (including the continuation space),
and the last line is at most 76 bytes — the final residue of up to 75 bytes
receives a continuation space, exceeding the bound by at most one byte. -/
theorem c2_fold_bound (s : List Char) :
    (∀ l ∈ (fold_line (pyEncode s)).dropLast, l.length ≤ 75) ∧
    (∀ l ∈ fold_line (pyEncode s), l.length ≤ 76) := by
  unfold fold_line
  by_cases h75 : (pyEncode s).length ≤ 75
  · rw [if_pos h75]
    constructor
    · intro l hl
      simp at hl
    · intro l hl
      simp only [List.mem_singleton] at hl
      subst hl
      omega
  · rw [if_neg h75]
    obtain ⟨s1, s2, hsp, hle1, hlen2, hne, hunf⟩ := foldParts_true_unfold s h75
    obtain ⟨ihall, ihdrop⟩ := foldPartsF_enc (pyEncode s).length s2 false hlen2
    cases hfp : foldPartsF (pyEncode s).length (pyEncode s2) false with
    | nil => exact absurd hfp (foldPartsF_ne_nil hne)
    | cons q qs =>
      rw [hunf, hfp]
      constructor
      · intro l hl
        rw [List.dropLast_cons_of_ne_nil (by simp)] at hl
        rcases List.mem_cons.1 hl with rfl | hl
        · exact hle1
        · rw [← List.map_dropLast] at hl
          obtain ⟨r, hr, rfl⟩ := List.mem_map.1 hl
          have : r.length ≤ 74 := by
            refine ihdrop rfl r ?_
            rw [hfp]
            exact hr
          simp
          omega
      · intro l hl
        rcases List.mem_cons.1 hl with rfl | hl
        · omega
        · obtain ⟨r, hr, rfl⟩ := List.mem_map.1 hl
          have : r.length ≤ 75 := (ihall r (by rw [hfp]; exact hr)).2
          simp
          omega

theorem c2_fold_bound_witness :
    (List.replicate 75 97 : List Nat).length ≤ 75 ∧
    ((32 : Nat) :: List.replicate 75 97).length ≤ 76 :=
  ⟨(c2_fold_bound (List.replicate 150 'a')).1 (List.replicate 75 97) (by decide),
   (c2_fold_bound (List.replicate 150 'a')).2 ((32 : Nat) :: List.replicate 75 97) (by decide)⟩

/-- C3: folding never cuts inside a multi-byte UTF-8 character — every
folded line is the encoding of a character string (continuation lines after
their leading space) — and unfolding (dropping each continuation line's
leading space and concatenating) reconstructs the original encoded line
exactly, for lines of any byte length. -/
theorem c3_fold_unfold (s : List Char) :
    (∀ l ∈ fold_line (pyEncode s),
      (∃ t : List Char, l = pyEncode t) ∨ (∃ t : List Char, l = 32 :: pyEncode t)) ∧
    unfoldLines (fold_line (pyEncode s)) = pyEncode s := by
  unfold fold_line
  by_cases h75 : (pyEncode s).length ≤ 75
  · rw [if_pos h75]
    constructor
    · intro l hl
      simp only [List.mem_singleton] at hl
      subst hl
      exact Or.inl ⟨s, rfl⟩
    · simp [unfoldLines]
  · rw [if_neg h75]
    obtain ⟨s1, s2, hsp, hle1, hlen2, hne, hunf⟩ := foldParts_true_unfold s h75
    obtain ⟨ihall, -⟩ := foldPartsF_enc (pyEncode s).length s2 false hlen2
    cases hfp : foldPartsF (pyEncode s).length (pyEncode s2) false with
    | nil => exact absurd hfp (foldPartsF_ne_nil hne)
    | cons q qs =>
      rw [hunf, hfp]
      constructor
      · intro l hl
        rcases List.mem_cons.1 hl with rfl | hl
        · exact Or.inl ⟨s1, rfl⟩
        · obtain ⟨r, hr, rfl⟩ := List.mem_map.1 hl
          obtain ⟨⟨t, rfl⟩, -⟩ := ihall r (by rw [hfp]; exact hr)
          exact Or.inr ⟨t, rfl⟩
      · show pyEncode s1 ++ (((q :: qs).map fun x => 32 :: x).map fun x => x.drop 1).flatten =
          pyEncode s
        rw [List.map_map]
        rw [show (((fun x : List Nat => x.drop 1) ∘ fun x => 32 :: x)) = id by
            funext x
            simp]
        rw [List.map_id]
        have hfl : (q :: qs).flatten = pyEncode s2 := by
          rw [← hfp]
          exact foldPartsF_flatten _ _ _
        rw [hfl, hsp, pyEncode_append]

theorem c3_fold_unfold_witness :
    ((∃ t : List Char, ((32 : Nat) :: pyEncode (List.replicate 3 'é')) = pyEncode t) ∨
     (∃ t : List Char, ((32 : Nat) :: pyEncode (List.replicate 3 'é')) = 32 :: pyEncode t)) ∧
    unfoldLines (fold_line (pyEncode (List.replicate 40 'é'))) =
      pyEncode (List.replicate 40 'é') :=
  ⟨(c3_fold_unfold (List.replicate 40 'é')).1 ((32 : Nat) :: pyEncode (List.replicate 3 'é'))
      (by decide),
   (c3_fold_unfold (List.replicate 40 'é')).2⟩

/-! ### C4: shape and stability of the event identifiers -/

theorem except_bind_ok {α β : Type} {e : Except Unit α} {f : α → Except Unit β} {b : β}
    (h : e >>= f = .ok b) : ∃ a, e = .ok a ∧ f a = .ok b := by
  cases e with
  | error u => simp [bind, Except.bind] at h
  | ok a => exact ⟨a, rfl, h⟩

theorem isUID_eq_false {bs : List Nat} (h : bs.head? ≠ some 85) : isUID bs = false := by
  cases bs with
  | nil => rfl
  | cons b t =>
    have hb : b ≠ 85 := fun e => h (by rw [List.head?_cons, e])
    have ht : isUID (b :: t) = (b :: t.take 3 == [85, 73, 68, 58]) := rfl
    rw [ht, beq_eq_false_iff_ne]
    intro he
    injection he with h1 _
    exact hb h1

theorem head_take_pos {bs : List Nat} {n : Nat} (hn : n ≠ 0) : (bs.take n).head? = bs.head? := by
  cases bs with
  | nil => simp
  | cons x xs =>
    cases n with
    | zero => exact absurd rfl hn
    | succ k => rfl

theorem foldPartsF_head : ∀ (fuel : Nat) (bs : List Nat) (first : Bool) (p : List Nat)
    (ps : List (List Nat)), foldPartsF fuel bs first = p :: ps → p.head? = bs.head?
  | 0, bs, first, p, ps => by
    intro h
    unfold foldPartsF at h
    injection h with h1 _
    rw [← h1]
  | fuel + 1, bs, first, p, ps => by
    intro h
    unfold foldPartsF at h
    split at h
    · split at h
      · exact absurd h (by simp)
      · injection h with h1 _
        rw [← h1]
    · simp only [] at h
      split at h
      all_goals
        split at h
        · injection h with h1 _
          rw [← h1]
        · injection h with h1 _
          rw [← h1]
          exact head_take_pos (by assumption)

theorem fold_line_mem_head {bs l : List Nat} (h : l ∈ fold_line bs) :
    l.head? = bs.head? ∨ l.head? = some 32 := by
  unfold fold_line at h
  split at h
  · rw [List.mem_singleton] at h
    exact Or.inl (by rw [h])
  · revert h
    cases hfp : foldParts bs true with
    | nil => intro h; cases h
    | cons p ps =>
      intro h
      rcases List.mem_cons.mp h with h1 | h2
      · exact Or.inl (by rw [h1]; exact foldPartsF_head (bs.length + 1) bs true p ps hfp)
      · rcases List.mem_map.mp h2 with ⟨q, -, hq⟩
        exact Or.inr (by rw [← hq]; rfl)

theorem filter_fold_line_nil (bs : List Nat) (a : Nat) (hhd : bs.head? = some a)
    (ha : a ≠ 85) : (fold_line bs).filter isUID = [] := by
  rw [List.filter_eq_nil_iff]
  intro l hl ht
  rcases fold_line_mem_head hl with h1 | h2
  · have hne : l.head? ≠ some 85 := by
      rw [h1, hhd]
      intro hc
      exact ha (Option.some.inj hc)
    rw [isUID_eq_false hne] at ht
    cases ht
  · have hne : l.head? ≠ some 85 := by
      rw [h2]
      intro hc
      exact absurd (Option.some.inj hc) (by decide)
    rw [isUID_eq_false hne] at ht
    cases ht

theorem isUID_begin : isUID (pyEncode (cs "BEGIN:VEVENT")) = false := rfl

theorem isUID_endv : isUID (pyEncode (cs "END:VEVENT")) = false := rfl

theorem isUID_dtstamp (x : PyStr) : isUID (pyEncode (cs "DTSTAMP:" ++ x)) = false := rfl

theorem isUID_dtstart (x : PyStr) :
    isUID (pyEncode (cs "DTSTART;TZID=Europe/Paris:" ++ x)) = false := rfl

theorem isUID_dtend (x : PyStr) :
    isUID (pyEncode (cs "DTEND;TZID=Europe/Paris:" ++ x)) = false := rfl

theorem isUID_uidLine (s : PyStr) (w i : Nat) : isUID (pyEncode (uidLine s w i)) = true := rfl

theorem filter_fold_summary (x : PyStr) :
    (fold_line (pyEncode (cs "SUMMARY:" ++ x))).filter isUID = [] :=
  filter_fold_line_nil _ 83 rfl (by decide)

theorem filter_fold_desc (x : PyStr) :
    (fold_line (pyEncode (cs "DESCRIPTION:" ++ x))).filter isUID = [] :=
  filter_fold_line_nil _ 68 rfl (by decide)

theorem filter_ite_desc (c : Prop) [Decidable c] (x : PyStr) :
    List.filter isUID (if c then fold_line (pyEncode (cs "DESCRIPTION:" ++ x)) else []) = [] := by
  split
  · exact filter_fold_desc x
  · rfl

theorem eventLines_filter {name s : PyStr} {w : Nat} {descRaw : PyStr}
    {repls : List Replacement} {dtstamp : PyStr} {i : Nat} {evt : JEvent}
    {b : List (List Nat)}
    (h : eventLines name s w descRaw repls dtstamp i evt = .ok b) :
    b.filter isUID = [pyEncode (uidLine s w i)] := by
  unfold eventLines at h
  obtain ⟨t1, -, h⟩ := except_bind_ok h
  obtain ⟨t2, -, h⟩ := except_bind_ok h
  obtain ⟨ts, -, h⟩ := except_bind_ok h
  obtain ⟨sh, -, h⟩ := except_bind_ok h
  obtain ⟨sm, -, h⟩ := except_bind_ok h
  obtain ⟨us, -, h⟩ := except_bind_ok h
  obtain ⟨eh, -, h⟩ := except_bind_ok h
  obtain ⟨em, -, h⟩ := except_bind_ok h
  obtain ⟨st, -, h⟩ := except_bind_ok h
  obtain ⟨u1, -, h⟩ := except_bind_ok h
  obtain ⟨u2, -, h⟩ := except_bind_ok h
  have hb : _ = b := Except.ok.inj h
  subst hb
  simp [List.filter_append, List.filter_cons, isUID_begin, isUID_uidLine, isUID_dtstamp,
        isUID_dtstart, isUID_dtend, isUID_endv, filter_fold_summary, filter_ite_desc]

theorem exMapM_flatten_filter {name s : PyStr} {w : Nat} {descRaw : PyStr}
    {repls : List Replacement} {dtstamp : PyStr} :
    ∀ (l : List (Nat × JEvent)) (blocks : List (List (List Nat))),
      exMapM (fun p => eventLines name s w descRaw repls dtstamp p.1 p.2) l = .ok blocks →
      blocks.flatten.filter isUID = l.map fun p => pyEncode (uidLine s w p.1)
  | [], blocks, h => by
    have hb : [] = blocks := Except.ok.inj h
    rw [← hb]
    rfl
  | x :: xs, blocks, h => by
    unfold exMapM at h
    obtain ⟨y, hy, h⟩ := except_bind_ok h
    obtain ⟨ys, hys, h⟩ := except_bind_ok h
    have hb : y :: ys = blocks := Except.ok.inj h
    rw [← hb]
    simp only [List.flatten_cons, List.filter_append, List.map_cons]
    rw [eventLines_filter hy, exMapM_flatten_filter xs ys hys]
    rfl

theorem enumFrom_map_fst {α β : Type} (g : Nat → β) :
    ∀ (i : Nat) (l : List α),
      (enumFrom i l).map (fun p => g p.1) = (List.range l.length).map fun j => g (j + i)
  | i, [] => rfl
  | i, x :: xs => by
    have ih := enumFrom_map_fst g (i + 1) xs
    simp only [enumFrom, List.map_cons, List.length_cons, List.range_succ_eq_map]
    rw [ih, List.map_map, Nat.zero_add]
    congr 1
    refine List.map_eq_map_iff.mpr fun j hj => ?_
    simp only [Function.comp]
    congr 1
    omega

theorem weekLines_filter {name s : PyStr} {allNotes : List (Nat × Notes)} {dtstamp : PyStr}
    {wk : Nat × List JEvent} {bl : List (List Nat)}
    (h : weekLines name s allNotes dtstamp wk = .ok bl) :
    bl.filter isUID = (List.range wk.2.length).map fun j => pyEncode (uidLine s wk.1 (j + 1)) := by
  unfold weekLines at h
  obtain ⟨blocks, hbl, h⟩ := except_bind_ok h
  have hb : blocks.flatten = bl := Except.ok.inj h
  rw [← hb, exMapM_flatten_filter _ _ hbl]
  exact enumFrom_map_fst (fun n => pyEncode (uidLine s wk.1 n)) 1 wk.2

theorem exMapM_weeks_filter {name : PyStr} {allNotes : List (Nat × Notes)} {dtstamp : PyStr}
    (s : PyStr) :
    ∀ (ws : List (Nat × List JEvent)) (wbs : List (List (List Nat))),
      exMapM (weekLines name s allNotes dtstamp) ws = .ok wbs →
      wbs.flatten.filter isUID =
        ws.flatMap fun p => (List.range p.2.length).map fun j => pyEncode (uidLine s p.1 (j + 1))
  | [], wbs, h => by
    have hb : [] = wbs := Except.ok.inj h
    rw [← hb]
    rfl
  | w :: ws, wbs, h => by
    unfold exMapM at h
    obtain ⟨y, hy, h⟩ := except_bind_ok h
    obtain ⟨ys, hys, h⟩ := except_bind_ok h
    have hb : y :: ys = wbs := Except.ok.inj h
    rw [← hb]
    simp only [List.flatten_cons, List.filter_append, List.flatMap_cons]
    rw [weekLines_filter hy, exMapM_weeks_filter s ws ys hys]

theorem filter_header (name : PyStr) : ((icsHeader name).map pyEncode).filter isUID = [] := rfl

/-- C4: the event identifiers of a generated feed are a pure function of the
employee's slug and the per-week event counts: whenever `generate_ics`
succeeds, the document's `UID:` lines are exactly one per event, formed from
the slug, the week number (weeks ascending) and the 1-based sequence number
within the week — and in particular two runs from identical inputs but
different generation timestamps produce byte-identical identifier lines. -/
theorem c4_uid_stability (name : PyStr) (allEvents : List (Nat × List JEvent))
    (allNotes : List (Nat × Notes)) (d1 d2 : PyStr) (doc1 doc2 : List (List Nat))
    (h1 : generate_ics name allEvents allNotes d1 = .ok doc1)
    (h2 : generate_ics name allEvents allNotes d2 = .ok doc2) :
    doc1.filter isUID = expectedUIDs (slug name) allEvents ∧
    doc2.filter isUID = doc1.filter isUID := by
  have key : ∀ d doc, generate_ics name allEvents allNotes d = .ok doc →
      doc.filter isUID = expectedUIDs (slug name) allEvents := by
    intro d doc h
    unfold generate_ics at h
    obtain ⟨wbs, hw, h⟩ := except_bind_ok h
    have hb : _ = doc := Except.ok.inj h
    rw [← hb]
    simp only [List.filter_append]
    rw [filter_header, exMapM_weeks_filter (slug name) _ _ hw]
    have hend : List.filter isUID [pyEncode (cs "END:VCALENDAR")] = [] := rfl
    rw [hend]
    simp [expectedUIDs]
  exact ⟨key d1 doc1 h1, (key d2 doc2 h2).trans (key d1 doc1 h1).symm⟩

theorem c4_uid_stability_witness :
    ((generate_ics (cs "Al")
        [(9, [JEvent.mk (cs "Foot") (cs "2026-03-03T10:00") (cs "2026-03-03T12:00")])]
        [] (cs "20260101T000000Z")).toOption.getD []).filter isUID =
      expectedUIDs (slug (cs "Al"))
        [(9, [JEvent.mk (cs "Foot") (cs "2026-03-03T10:00") (cs "2026-03-03T12:00")])] ∧
    ((generate_ics (cs "Al")
        [(9, [JEvent.mk (cs "Foot") (cs "2026-03-03T10:00") (cs "2026-03-03T12:00")])]
        [] (cs "20990101T000000Z")).toOption.getD []).filter isUID =
    ((generate_ics (cs "Al")
        [(9, [JEvent.mk (cs "Foot") (cs "2026-03-03T10:00") (cs "2026-03-03T12:00")])]
        [] (cs "20260101T000000Z")).toOption.getD []).filter isUID :=
  c4_uid_stability (cs "Al")
    [(9, [JEvent.mk (cs "Foot") (cs "2026-03-03T10:00") (cs "2026-03-03T12:00")])]
    [] (cs "20260101T000000Z") (cs "20990101T000000Z") _ _ rfl rfl

/-! ### C5/C10: dict-update lemmas for the replacement synthesis loop -/

theorem alistGet_updateFirst_self {κ α : Type} [DecidableEq κ] :
    ∀ (l : List (κ × α)) (k : κ) (f : α → α),
      alistGet? (updateFirst l k f) k = (alistGet? l k).map f
  | [], k, f => rfl
  | (k', v) :: t, k, f => by
    by_cases hk : k' = k
    · simp only [updateFirst, if_pos hk, alistGet?]
      rfl
    · simp only [updateFirst, if_neg hk, alistGet?]
      exact alistGet_updateFirst_self t k f

theorem alistGet_updateFirst_ne {κ α : Type} [DecidableEq κ] :
    ∀ (l : List (κ × α)) (k k' : κ) (f : α → α), k' ≠ k →
      alistGet? (updateFirst l k f) k' = alistGet? l k'
  | [], _, _, _, _ => rfl
  | (k0, v) :: t, k, k', f, hne => by
    by_cases hk : k0 = k
    · simp only [updateFirst, if_pos hk, alistGet?]
      rw [if_neg (by rw [hk]; exact fun e => hne e.symm), if_neg (by rw [hk]; exact fun e => hne e.symm)]
    · simp only [updateFirst, if_neg hk, alistGet?]
      by_cases h0 : k0 = k'
      · rw [if_pos h0, if_pos h0]
      · rw [if_neg h0, if_neg h0]
        exact alistGet_updateFirst_ne t k k' f hne

theorem alistGet_append_self {κ α : Type} [DecidableEq κ] :
    ∀ (l : List (κ × α)) (k : κ) (v : α), alistGet? l k = Option.none →
      alistGet? (l ++ [(k, v)]) k = some v
  | [], k, v, _ => by simp [alistGet?]
  | (k0, w) :: t, k, v, h => by
    simp only [alistGet?] at h
    by_cases hk : k0 = k
    · rw [if_pos hk] at h
      cases h
    · rw [if_neg hk] at h
      simp only [List.cons_append, alistGet?, if_neg hk]
      exact alistGet_append_self t k v h

theorem alistGet_append_ne {κ α : Type} [DecidableEq κ] :
    ∀ (l : List (κ × α)) (k k' : κ) (v : α), k' ≠ k →
      alistGet? (l ++ [(k, v)]) k' = alistGet? l k'
  | [], k, k', v, hne => by
    simp only [List.nil_append, alistGet?]
    rw [if_neg (fun e => hne e.symm)]
  | (k0, w) :: t, k, k', v, hne => by
    simp only [List.cons_append, alistGet?]
    by_cases h0 : k0 = k'
    · rw [if_pos h0, if_pos h0]
    · rw [if_neg h0, if_neg h0]
      exact alistGet_append_ne t k k' v hne

theorem getWeekEvts_eq_some {emps : Employees} {n : PyStr} {d : EmpData}
    (h : alistGet? emps n = some d) (w : Nat) :
    getWeekEvts emps n w = (alistGet? d.weeks w).getD [] := by
  unfold getWeekEvts
  rw [h]

theorem getWeekEvts_eq_none {emps : Employees} {n : PyStr}
    (h : alistGet? emps n = Option.none) (w : Nat) : getWeekEvts emps n w = [] := by
  unfold getWeekEvts
  rw [h]

theorem getWeekEvts_update_self (emps : Employees) (n : PyStr) (w : Nat) (sv : PyStr)
    (g : List JEvent → List JEvent) :
    getWeekEvts
      (updateFirst (if (alistGet? emps n).isSome then emps else emps ++ [(n, EmpData.mk sv [])])
        n (fun d => EmpData.mk d.slugVal
            (updateFirst (if (alistGet? d.weeks w).isSome then d.weeks else d.weeks ++ [(w, [])])
              w g)))
      n w = g (getWeekEvts emps n w) := by
  cases he : alistGet? emps n with
  | none =>
    rw [getWeekEvts_eq_none he, if_neg (by simp)]
    have h1 := alistGet_append_self emps n (EmpData.mk sv []) he
    rw [getWeekEvts_eq_some (by rw [alistGet_updateFirst_self, h1]; rfl) w]
    simp [updateFirst, alistGet?]
  | some d =>
    rw [getWeekEvts_eq_some he w, if_pos (show (some d).isSome = true from rfl)]
    rw [getWeekEvts_eq_some (by rw [alistGet_updateFirst_self, he]; rfl) w]
    show (alistGet? (updateFirst
        (if (alistGet? d.weeks w).isSome then d.weeks else d.weeks ++ [(w, [])]) w g) w).getD []
      = g ((alistGet? d.weeks w).getD [])
    rw [alistGet_updateFirst_self]
    cases hw : alistGet? d.weeks w with
    | none =>
      rw [if_neg (by simp), alistGet_append_self d.weeks w ([] : List JEvent) hw]
      rfl
    | some l =>
      rw [if_pos (show (some l).isSome = true from rfl), hw]
      rfl

theorem except_ite_bind_ok {α β : Type} {c : Prop} [Decidable c] {e1 e2 : Except Unit α}
    {f : α → Except Unit β} {b : β}
    (h : (if c then e1 >>= f else e2 >>= f) = .ok b) :
    ∃ a, (if c then e1 else e2) = .ok a ∧ f a = .ok b := by
  by_cases hc : c
  · rw [if_pos hc] at h
    obtain ⟨a, ha, hf⟩ := except_bind_ok h
    exact ⟨a, by rw [if_pos hc]; exact ha, hf⟩
  · rw [if_neg hc] at h
    obtain ⟨a, ha, hf⟩ := except_bind_ok h
    exact ⟨a, by rw [if_neg hc]; exact ha, hf⟩

theorem applyRepl_cases {emps : Employees} {week : Nat} {r : Replacement} {out : Employees}
    (h : applyRepl emps week r = .ok out) :
    (out = emps ∧
      (r.inName = [] ∨
        (getWeekEvts emps r.inName week).any (fun e => e.start.take 10 == r.date) = true)) ∨
    ∃ rsh rsm reh rem lbl,
      pyInt ((pySplit ':' r.start).headD []) = .ok rsh ∧
      (if 1 < (pySplit ':' r.start).length then pyInt ((pySplit ':' r.start).getD 1 [])
        else pure 0) = .ok rsm ∧
      pyInt ((pySplit ':' r.stop).headD []) = .ok reh ∧
      (if 1 < (pySplit ':' r.stop).length then pyInt ((pySplit ':' r.stop).getD 1 [])
        else pure 0) = .ok rem ∧
      r.inName ≠ [] ∧
      (getWeekEvts emps r.inName week).any (fun e => e.start.take 10 == r.date) = false ∧
      findOverlapLabel (getWeekEvts emps r.outName week) r.date (hourSx rsh rsm)
        (hourSx reh rem) (cs "Vie de centre") = .ok lbl ∧
      out = updateFirst
          (if (alistGet? emps r.inName).isSome then emps
            else emps ++ [(r.inName, EmpData.mk (slug r.inName) [])])
          r.inName (fun d => EmpData.mk d.slugVal
            (updateFirst
              (if (alistGet? d.weeks week).isSome then d.weeks else d.weeks ++ [(week, [])])
              week (fun l => l ++ [JEvent.mk lbl
                (r.date ++ 'T' :: (fmt02Int rsh ++ ':' :: fmt02Int rsm))
                (r.date ++ 'T' :: (fmt02Int reh ++ ':' :: fmt02Int rem))]))) := by
  unfold applyRepl at h
  simp only [] at h
  by_cases hin0 : List.isEmpty r.inName = true
  · rw [if_pos hin0] at h
    exact Or.inl ⟨(Except.ok.inj h).symm, Or.inl (by
      cases hn : r.inName with
      | nil => rfl
      | cons c t => rw [hn] at hin0; cases hin0)⟩
  · rw [if_neg hin0] at h
    obtain ⟨y0, -, h⟩ := except_bind_ok h
    obtain ⟨rsh, hrsh, h⟩ := except_bind_ok h
    obtain ⟨rsm, hrsm, h⟩ := except_ite_bind_ok h
    obtain ⟨reh, hreh, h⟩ := except_bind_ok h
    obtain ⟨rem, hrem, h⟩ := except_ite_bind_ok h
    by_cases hany :
        ((getWeekEvts emps r.inName week).any fun e => List.take 10 e.start == r.date) = true
    · rw [if_pos hany] at h
      exact Or.inl ⟨(Except.ok.inj h).symm, Or.inr hany⟩
    · rw [if_neg hany] at h
      obtain ⟨y1, -, h⟩ := except_bind_ok h
      obtain ⟨lbl, hlbl, h⟩ := except_bind_ok h
      refine Or.inr ⟨rsh, rsm, reh, rem, lbl, hrsh, hrsm, hreh, hrem, ?_, ?_, hlbl, ?_⟩
      · intro he
        exact hin0 (by rw [he]; rfl)
      · exact Bool.eq_false_iff.mpr hany
      · exact (Except.ok.inj h).symm

theorem alistGet_update_ext (emps : Employees) (k : PyStr) (v : EmpData)
    (F : EmpData → EmpData) (n : PyStr) (hn : n ≠ k) :
    alistGet? (updateFirst (if (alistGet? emps k).isSome then emps else emps ++ [(k, v)]) k F) n
      = alistGet? emps n := by
  rw [alistGet_updateFirst_ne _ _ _ _ hn]
  by_cases hs : (alistGet? emps k).isSome = true
  · rw [if_pos hs]
  · rw [if_neg hs]
    exact alistGet_append_ne emps k n v hn

theorem getWeekEvts_congr {a b : Employees} {n : PyStr}
    (h : alistGet? a n = alistGet? b n) (w : Nat) : getWeekEvts a n w = getWeekEvts b n w := by
  unfold getWeekEvts
  rw [h]

theorem getWeekEvts_update_other_week (emps : Employees) (k : PyStr) (week w : Nat)
    (hw : w ≠ week) (g : List JEvent → List JEvent) (sv : PyStr) :
    getWeekEvts
      (updateFirst (if (alistGet? emps k).isSome then emps else emps ++ [(k, EmpData.mk sv [])])
        k (fun d => EmpData.mk d.slugVal
            (updateFirst (if (alistGet? d.weeks week).isSome then d.weeks
              else d.weeks ++ [(week, [])]) week g)))
      k w = getWeekEvts emps k w := by
  cases he : alistGet? emps k with
  | none =>
    rw [getWeekEvts_eq_none he, if_neg (by simp)]
    rw [getWeekEvts_eq_some
      (by rw [alistGet_updateFirst_self, alistGet_append_self emps k _ he]; rfl) w]
    show (alistGet? (updateFirst (if (alistGet? ([] : List (Nat × List JEvent)) week).isSome
        then ([] : List (Nat × List JEvent)) else [] ++ [(week, [])]) week g) w).getD [] = []
    rw [alistGet_updateFirst_ne _ _ _ _ hw, if_neg (by simp [alistGet?]), List.nil_append]
    show (if week = w then some ([] : List JEvent) else alistGet? [] w).getD [] = []
    rw [if_neg (fun e => hw e.symm)]
    rfl
  | some d =>
    rw [getWeekEvts_eq_some he w, if_pos (show (some d).isSome = true from rfl)]
    rw [getWeekEvts_eq_some (by rw [alistGet_updateFirst_self, he]; rfl) w]
    show (alistGet? (updateFirst (if (alistGet? d.weeks week).isSome then d.weeks
        else d.weeks ++ [(week, [])]) week g) w).getD [] = (alistGet? d.weeks w).getD []
    rw [alistGet_updateFirst_ne _ _ _ _ hw]
    by_cases hs : (alistGet? d.weeks week).isSome = true
    · rw [if_pos hs]
    · rw [if_neg hs, alistGet_append_ne d.weeks week w _ hw]

/-- C5 counterexample: the incoming employee's only event on the record's
date runs 14:00-16:00 while the record's window is 10:00-12:00, so the two do
not overlap and the specification calls for a synthesized event; but the
synthesis loop keys its skip test on "any event on that date", so it returns
the employee table unchanged.  The second conjunct certifies, with the
source's own overlap search, that no event of the incoming employee on that
date overlaps the window. -/
theorem c5_counterexample :
    applyRepl
        [(cs "IN GUY", EmpData.mk (cs "in-guy")
          [(9, [JEvent.mk (cs "Bar") (cs "2026-03-03T14:00") (cs "2026-03-03T16:00")])])]
        9 (Replacement.mk (cs "2026-03-03") (cs "10:00") (cs "12:00") (cs "IN GUY") (cs "OUT GUY"))
      = .ok [(cs "IN GUY", EmpData.mk (cs "in-guy")
          [(9, [JEvent.mk (cs "Bar") (cs "2026-03-03T14:00") (cs "2026-03-03T16:00")])])] ∧
    findOverlapLabel [JEvent.mk (cs "Bar") (cs "2026-03-03T14:00") (cs "2026-03-03T16:00")]
        (cs "2026-03-03") (hourSx 10 0) (hourSx 12 0) (cs "Vie de centre")
      = .ok (cs "Vie de centre") := by
  exact ⟨by decide, by decide⟩

/-- C5 (amended): for a replacement record with a nonempty incoming name,
whenever the synthesis loop succeeds: if the incoming employee already has
an event whose date prefix equals the record's date (overlapping or not),
nothing changes; if the incoming employee has no event at all on that date,
exactly one synthesized event is appended to their list for that week, its
window printed from the record's parsed start/end fields and its label
found by the source's overlap search over the outgoing employee's events
(first overlapping event on the date, default "Vie de centre"). -/
theorem c5_synthesis (emps : Employees) (week : Nat) (r : Replacement) (out : Employees)
    (hin : r.inName ≠ []) (h : applyRepl emps week r = .ok out) :
    ((getWeekEvts emps r.inName week).any (fun e => e.start.take 10 == r.date) = true →
      out = emps) ∧
    ((getWeekEvts emps r.inName week).any (fun e => e.start.take 10 == r.date) = false →
      ∃ rsh rsm reh rem lbl,
        pyInt ((pySplit ':' r.start).headD []) = .ok rsh ∧
        (if 1 < (pySplit ':' r.start).length then pyInt ((pySplit ':' r.start).getD 1 [])
          else pure 0) = .ok rsm ∧
        pyInt ((pySplit ':' r.stop).headD []) = .ok reh ∧
        (if 1 < (pySplit ':' r.stop).length then pyInt ((pySplit ':' r.stop).getD 1 [])
          else pure 0) = .ok rem ∧
        findOverlapLabel (getWeekEvts emps r.outName week) r.date (hourSx rsh rsm)
          (hourSx reh rem) (cs "Vie de centre") = .ok lbl ∧
        getWeekEvts out r.inName week =
          getWeekEvts emps r.inName week ++
            [JEvent.mk lbl (r.date ++ 'T' :: (fmt02Int rsh ++ ':' :: fmt02Int rsm))
              (r.date ++ 'T' :: (fmt02Int reh ++ ':' :: fmt02Int rem))]) := by
  rcases applyRepl_cases h with ⟨ho, hc⟩ |
    ⟨rsh, rsm, reh, rem, lbl, h1, h2, h3, h4, -, hany, hlbl, ho⟩
  · rcases hc with hc | hc
    · exact absurd hc hin
    · refine ⟨fun _ => ho, fun hfalse => ?_⟩
      rw [hc] at hfalse
      cases hfalse
  · refine ⟨fun htrue => ?_, fun _ => ?_⟩
    · rw [hany] at htrue
      cases htrue
    · refine ⟨rsh, rsm, reh, rem, lbl, h1, h2, h3, h4, hlbl, ?_⟩
      rw [ho]
      exact getWeekEvts_update_self emps r.inName week (slug r.inName)
        (fun l => l ++ [JEvent.mk lbl (r.date ++ 'T' :: (fmt02Int rsh ++ ':' :: fmt02Int rsm))
          (r.date ++ 'T' :: (fmt02Int reh ++ ':' :: fmt02Int rem))])

theorem c5_synthesis_witness :
    (Replacement.mk (cs "2026-03-03") (cs "10:00") (cs "12:00") (cs "IN A") (cs "OUT B")).inName ≠ [] ∧
    applyRepl
      [(cs "IN A", EmpData.mk (cs "in-a")
        [(9, [JEvent.mk (cs "Bar") (cs "2026-03-04T14:00") (cs "2026-03-04T16:00")])]),
      (cs "OUT B", EmpData.mk (cs "out-b")
        [(9, [JEvent.mk (cs "Anim") (cs "2026-03-03T09:00") (cs "2026-03-03T13:00")])])]
      9 (Replacement.mk (cs "2026-03-03") (cs "10:00") (cs "12:00") (cs "IN A") (cs "OUT B")) = .ok
    ((applyRepl
      [(cs "IN A", EmpData.mk (cs "in-a")
        [(9, [JEvent.mk (cs "Bar") (cs "2026-03-04T14:00") (cs "2026-03-04T16:00")])]),
      (cs "OUT B", EmpData.mk (cs "out-b")
        [(9, [JEvent.mk (cs "Anim") (cs "2026-03-03T09:00") (cs "2026-03-03T13:00")])])]
      9 (Replacement.mk (cs "2026-03-03") (cs "10:00") (cs "12:00") (cs "IN A") (cs "OUT B"))).toOption.getD []) ∧
    (((getWeekEvts
      [(cs "IN A", EmpData.mk (cs "in-a")
        [(9, [JEvent.mk (cs "Bar") (cs "2026-03-04T14:00") (cs "2026-03-04T16:00")])]),
      (cs "OUT B", EmpData.mk (cs "out-b")
        [(9, [JEvent.mk (cs "Anim") (cs "2026-03-03T09:00") (cs "2026-03-03T13:00")])])]
      (Replacement.mk (cs "2026-03-03") (cs "10:00") (cs "12:00") (cs "IN A") (cs "OUT B")).inName 9).any
        (fun e => e.start.take 10 == (Replacement.mk (cs "2026-03-03") (cs "10:00") (cs "12:00") (cs "IN A") (cs "OUT B")).date) = true →
      ((applyRepl
      [(cs "IN A", EmpData.mk (cs "in-a")
        [(9, [JEvent.mk (cs "Bar") (cs "2026-03-04T14:00") (cs "2026-03-04T16:00")])]),
      (cs "OUT B", EmpData.mk (cs "out-b")
        [(9, [JEvent.mk (cs "Anim") (cs "2026-03-03T09:00") (cs "2026-03-03T13:00")])])]
      9 (Replacement.mk (cs "2026-03-03") (cs "10:00") (cs "12:00") (cs "IN A") (cs "OUT B"))).toOption.getD []) =
      [(cs "IN A", EmpData.mk (cs "in-a")
        [(9, [JEvent.mk (cs "Bar") (cs "2026-03-04T14:00") (cs "2026-03-04T16:00")])]),
      (cs "OUT B", EmpData.mk (cs "out-b")
        [(9, [JEvent.mk (cs "Anim") (cs "2026-03-03T09:00") (cs "2026-03-03T13:00")])])]) ∧
    ((getWeekEvts
      [(cs "IN A", EmpData.mk (cs "in-a")
        [(9, [JEvent.mk (cs "Bar") (cs "2026-03-04T14:00") (cs "2026-03-04T16:00")])]),
      (cs "OUT B", EmpData.mk (cs "out-b")
        [(9, [JEvent.mk (cs "Anim") (cs "2026-03-03T09:00") (cs "2026-03-03T13:00")])])]
      (Replacement.mk (cs "2026-03-03") (cs "10:00") (cs "12:00") (cs "IN A") (cs "OUT B")).inName 9).any
        (fun e => e.start.take 10 == (Replacement.mk (cs "2026-03-03") (cs "10:00") (cs "12:00") (cs "IN A") (cs "OUT B")).date) = false →
      ∃ rsh rsm reh rem lbl,
        pyInt ((pySplit ':' (Replacement.mk (cs "2026-03-03") (cs "10:00") (cs "12:00") (cs "IN A") (cs "OUT B")).start).headD []) = .ok rsh ∧
        (if 1 < (pySplit ':' (Replacement.mk (cs "2026-03-03") (cs "10:00") (cs "12:00") (cs "IN A") (cs "OUT B")).start).length
          then pyInt ((pySplit ':' (Replacement.mk (cs "2026-03-03") (cs "10:00") (cs "12:00") (cs "IN A") (cs "OUT B")).start).getD 1 [])
          else pure 0) = .ok rsm ∧
        pyInt ((pySplit ':' (Replacement.mk (cs "2026-03-03") (cs "10:00") (cs "12:00") (cs "IN A") (cs "OUT B")).stop).headD []) = .ok reh ∧
        (if 1 < (pySplit ':' (Replacement.mk (cs "2026-03-03") (cs "10:00") (cs "12:00") (cs "IN A") (cs "OUT B")).stop).length
          then pyInt ((pySplit ':' (Replacement.mk (cs "2026-03-03") (cs "10:00") (cs "12:00") (cs "IN A") (cs "OUT B")).stop).getD 1 [])
          else pure 0) = .ok rem ∧
        findOverlapLabel (getWeekEvts
          [(cs "IN A", EmpData.mk (cs "in-a")
        [(9, [JEvent.mk (cs "Bar") (cs "2026-03-04T14:00") (cs "2026-03-04T16:00")])]),
      (cs "OUT B", EmpData.mk (cs "out-b")
        [(9, [JEvent.mk (cs "Anim") (cs "2026-03-03T09:00") (cs "2026-03-03T13:00")])])]
          (Replacement.mk (cs "2026-03-03") (cs "10:00") (cs "12:00") (cs "IN A") (cs "OUT B")).outName 9) (Replacement.mk (cs "2026-03-03") (cs "10:00") (cs "12:00") (cs "IN A") (cs "OUT B")).date (hourSx rsh rsm)
          (hourSx reh rem) (cs "Vie de centre") = .ok lbl ∧
        getWeekEvts
          ((applyRepl
      [(cs "IN A", EmpData.mk (cs "in-a")
        [(9, [JEvent.mk (cs "Bar") (cs "2026-03-04T14:00") (cs "2026-03-04T16:00")])]),
      (cs "OUT B", EmpData.mk (cs "out-b")
        [(9, [JEvent.mk (cs "Anim") (cs "2026-03-03T09:00") (cs "2026-03-03T13:00")])])]
      9 (Replacement.mk (cs "2026-03-03") (cs "10:00") (cs "12:00") (cs "IN A") (cs "OUT B"))).toOption.getD [])
          (Replacement.mk (cs "2026-03-03") (cs "10:00") (cs "12:00") (cs "IN A") (cs "OUT B")).inName 9 =
          getWeekEvts
            [(cs "IN A", EmpData.mk (cs "in-a")
        [(9, [JEvent.mk (cs "Bar") (cs "2026-03-04T14:00") (cs "2026-03-04T16:00")])]),
      (cs "OUT B", EmpData.mk (cs "out-b")
        [(9, [JEvent.mk (cs "Anim") (cs "2026-03-03T09:00") (cs "2026-03-03T13:00")])])]
            (Replacement.mk (cs "2026-03-03") (cs "10:00") (cs "12:00") (cs "IN A") (cs "OUT B")).inName 9 ++
            [JEvent.mk lbl ((Replacement.mk (cs "2026-03-03") (cs "10:00") (cs "12:00") (cs "IN A") (cs "OUT B")).date ++ 'T' :: (fmt02Int rsh ++ ':' :: fmt02Int rsm))
              ((Replacement.mk (cs "2026-03-03") (cs "10:00") (cs "12:00") (cs "IN A") (cs "OUT B")).date ++ 'T' :: (fmt02Int reh ++ ':' :: fmt02Int rem))])) :=
  ⟨by decide, rfl,
    c5_synthesis
      [(cs "IN A", EmpData.mk (cs "in-a")
        [(9, [JEvent.mk (cs "Bar") (cs "2026-03-04T14:00") (cs "2026-03-04T16:00")])]),
      (cs "OUT B", EmpData.mk (cs "out-b")
        [(9, [JEvent.mk (cs "Anim") (cs "2026-03-03T09:00") (cs "2026-03-03T13:00")])])]
      9 (Replacement.mk (cs "2026-03-03") (cs "10:00") (cs "12:00") (cs "IN A") (cs "OUT B"))
      ((applyRepl
      [(cs "IN A", EmpData.mk (cs "in-a")
        [(9, [JEvent.mk (cs "Bar") (cs "2026-03-04T14:00") (cs "2026-03-04T16:00")])]),
      (cs "OUT B", EmpData.mk (cs "out-b")
        [(9, [JEvent.mk (cs "Anim") (cs "2026-03-03T09:00") (cs "2026-03-03T13:00")])])]
      9 (Replacement.mk (cs "2026-03-03") (cs "10:00") (cs "12:00") (cs "IN A") (cs "OUT B"))).toOption.getD [])
      (by decide) rfl⟩

/-- C10: replacement synthesis is frame-preserving.  Whenever the synthesis
loop succeeds: every employee other than the record's incoming name keeps
its dict entry byte-for-byte; every employee that existed before keeps its
slug; and every (employee, week) event list is either unchanged or extended
by at most one event appended at the end — with any change confined to the
incoming employee's list for the record's week, so pre-existing events keep
their positions and hence their sequence numbers and identifiers. -/
theorem c10_frame (emps : Employees) (week : Nat) (r : Replacement) (out : Employees)
    (h : applyRepl emps week r = .ok out) :
    (∀ n, n ≠ r.inName → alistGet? out n = alistGet? emps n) ∧
    (∀ n d, alistGet? emps n = some d →
      ∃ d', alistGet? out n = some d' ∧ d'.slugVal = d.slugVal) ∧
    (∀ n w, ∃ suf, getWeekEvts out n w = getWeekEvts emps n w ++ suf ∧
      suf.length ≤ 1 ∧ (¬(n = r.inName ∧ w = week) → suf = [])) := by
  rcases applyRepl_cases h with ⟨ho, -⟩ |
    ⟨rsh, rsm, reh, rem, lbl, -, -, -, -, -, -, -, ho⟩
  · subst ho
    exact ⟨fun n _ => rfl, fun n d hd => ⟨d, hd, rfl⟩,
      fun n w => ⟨[], by simp, by simp, fun _ => rfl⟩⟩
  · subst ho
    have hA : ∀ n, n ≠ r.inName →
        alistGet? (updateFirst
          (if (alistGet? emps r.inName).isSome then emps
            else emps ++ [(r.inName, EmpData.mk (slug r.inName) [])])
          r.inName (fun d => EmpData.mk d.slugVal
            (updateFirst
              (if (alistGet? d.weeks week).isSome then d.weeks else d.weeks ++ [(week, [])])
              week (fun l => l ++ [JEvent.mk lbl
                (r.date ++ 'T' :: (fmt02Int rsh ++ ':' :: fmt02Int rsm))
                (r.date ++ 'T' :: (fmt02Int reh ++ ':' :: fmt02Int rem))])))) n
          = alistGet? emps n := by
      intro n hn
      exact alistGet_update_ext emps r.inName _ _ n hn
    refine ⟨hA, ?_, ?_⟩
    · intro n d hd
      by_cases hn : n = r.inName
      · subst hn
        have hs : (alistGet? emps r.inName).isSome = true := by rw [hd]; rfl
        rw [if_pos hs, alistGet_updateFirst_self, hd]
        exact ⟨_, rfl, rfl⟩
      · rw [hA n hn]
        exact ⟨d, hd, rfl⟩
    · intro n w
      by_cases hn : n = r.inName
      · subst hn
        by_cases hww : w = week
        · subst hww
          refine ⟨[JEvent.mk lbl
              (r.date ++ 'T' :: (fmt02Int rsh ++ ':' :: fmt02Int rsm))
              (r.date ++ 'T' :: (fmt02Int reh ++ ':' :: fmt02Int rem))], ?_, ?_, ?_⟩
          · exact getWeekEvts_update_self emps r.inName w (slug r.inName)
              (fun l => l ++ [JEvent.mk lbl
                (r.date ++ 'T' :: (fmt02Int rsh ++ ':' :: fmt02Int rsm))
                (r.date ++ 'T' :: (fmt02Int reh ++ ':' :: fmt02Int rem))])
          · simp
          · intro hc
            exact absurd ⟨rfl, rfl⟩ hc
        · refine ⟨[], ?_, by simp, fun _ => rfl⟩
          rw [List.append_nil]
          exact getWeekEvts_update_other_week emps r.inName week w hww _ (slug r.inName)
      · refine ⟨[], ?_, by simp, fun _ => rfl⟩
        rw [List.append_nil]
        exact getWeekEvts_congr (hA n hn) w

theorem c10_frame_witness :
    applyRepl
      [(cs "X Y", EmpData.mk (cs "x-y")
        [(9, [JEvent.mk (cs "Foot") (cs "2026-03-05T10:00") (cs "2026-03-05T12:00")])])]
      9 (Replacement.mk (cs "2026-03-06") (cs "9:00") (cs "11:00") (cs "Z W") (cs "X Y")) = .ok
    ((applyRepl
      [(cs "X Y", EmpData.mk (cs "x-y")
        [(9, [JEvent.mk (cs "Foot") (cs "2026-03-05T10:00") (cs "2026-03-05T12:00")])])]
      9 (Replacement.mk (cs "2026-03-06") (cs "9:00") (cs "11:00") (cs "Z W") (cs "X Y"))).toOption.getD []) ∧
    ((∀ n, n ≠ (Replacement.mk (cs "2026-03-06") (cs "9:00") (cs "11:00") (cs "Z W") (cs "X Y")).inName →
      alistGet? ((applyRepl
      [(cs "X Y", EmpData.mk (cs "x-y")
        [(9, [JEvent.mk (cs "Foot") (cs "2026-03-05T10:00") (cs "2026-03-05T12:00")])])]
      9 (Replacement.mk (cs "2026-03-06") (cs "9:00") (cs "11:00") (cs "Z W") (cs "X Y"))).toOption.getD []) n =
      alistGet?
        [(cs "X Y", EmpData.mk (cs "x-y")
        [(9, [JEvent.mk (cs "Foot") (cs "2026-03-05T10:00") (cs "2026-03-05T12:00")])])] n) ∧
    (∀ n d, alistGet?
        [(cs "X Y", EmpData.mk (cs "x-y")
        [(9, [JEvent.mk (cs "Foot") (cs "2026-03-05T10:00") (cs "2026-03-05T12:00")])])] n = some d →
      ∃ d', alistGet? ((applyRepl
      [(cs "X Y", EmpData.mk (cs "x-y")
        [(9, [JEvent.mk (cs "Foot") (cs "2026-03-05T10:00") (cs "2026-03-05T12:00")])])]
      9 (Replacement.mk (cs "2026-03-06") (cs "9:00") (cs "11:00") (cs "Z W") (cs "X Y"))).toOption.getD []) n = some d' ∧ d'.slugVal = d.slugVal) ∧
    (∀ n w, ∃ suf, getWeekEvts ((applyRepl
      [(cs "X Y", EmpData.mk (cs "x-y")
        [(9, [JEvent.mk (cs "Foot") (cs "2026-03-05T10:00") (cs "2026-03-05T12:00")])])]
      9 (Replacement.mk (cs "2026-03-06") (cs "9:00") (cs "11:00") (cs "Z W") (cs "X Y"))).toOption.getD []) n w =
      getWeekEvts
        [(cs "X Y", EmpData.mk (cs "x-y")
        [(9, [JEvent.mk (cs "Foot") (cs "2026-03-05T10:00") (cs "2026-03-05T12:00")])])] n w ++ suf ∧
      suf.length ≤ 1 ∧ (¬(n = (Replacement.mk (cs "2026-03-06") (cs "9:00") (cs "11:00") (cs "Z W") (cs "X Y")).inName ∧ w = 9) → suf = []))) :=
  ⟨rfl, c10_frame
    [(cs "X Y", EmpData.mk (cs "x-y")
        [(9, [JEvent.mk (cs "Foot") (cs "2026-03-05T10:00") (cs "2026-03-05T12:00")])])]
    9 (Replacement.mk (cs "2026-03-06") (cs "9:00") (cs "11:00") (cs "Z W") (cs "X Y"))
    ((applyRepl
      [(cs "X Y", EmpData.mk (cs "x-y")
        [(9, [JEvent.mk (cs "Foot") (cs "2026-03-05T10:00") (cs "2026-03-05T12:00")])])]
      9 (Replacement.mk (cs "2026-03-06") (cs "9:00") (cs "11:00") (cs "Z W") (cs "X Y"))).toOption.getD []) rfl⟩
